import Mathlib

/-!
A shallow embedding of the reverse-reachability index of `git-reconstruct`
(`src/lut.rs`, `src/main.rs`, `src/cli.rs`), together with proofs of the
structural and functional properties of its builder and query engine.

Digests (`git2::Oid`, 20-byte identifiers with lexicographic total order)
are modelled as natural numbers; `BTreeMap<Oid, _>` is modelled as an
association list kept sorted by key, which preserves the iteration order
(ascending keys) that `compact_memory` and `commit_oids_table` rely on.
Recursive tree walks and the query loops are modelled with explicit fuel;
a `none` result stands for a Rust panic or for fuel exhaustion, and the
theorems either supply sufficient fuel or hold for every fuel.
-/

set_option maxHeartbeats 1000000

/-- Digest of a repository object (`git2::Oid`): a 20-byte identifier with
lexicographic total order, modelled as a natural number. -/
abbrev Oid := Nat

/-- The object kinds relevant to the traversal (`git2::ObjectType`);
`other` stands for every kind that is neither commit, tree nor blob. -/
inductive ObjKind : Type where
  | commit : ObjKind
  | tree : ObjKind
  | blob : ObjKind
  | other : ObjKind
deriving DecidableEq, Repr

/-- Per-digest payload of the lookup table (`Capsule` in `main.rs`):
parents stored as digests (`Normal`) or, after `compact_memory`,
as indices into the sorted key list (`Compact`). -/
inductive Capsule : Type where
  | Normal : List Oid → Capsule
  | Compact : List Nat → Capsule
deriving DecidableEq, Repr

/-- `BTreeMap::get`, on the sorted association-list model of the map. -/
def btreeGet {β : Type} (k : Oid) : List (Oid × β) → Option β
  | [] => none
  | (k', v) :: rest => if k = k' then some v else btreeGet k rest

/-- `BTreeMap::insert` (also the write half of the `Entry` API): insert
keeping keys sorted, replacing the value when the key is present. -/
def btreeInsert {β : Type} (k : Oid) (v : β) : List (Oid × β) → List (Oid × β)
  | [] => [(k, v)]
  | (k', v') :: rest =>
    if k < k' then (k, v) :: (k', v') :: rest
    else if k = k' then (k, v) :: rest
    else (k', v') :: btreeInsert k v rest

/-- The lookup table `BTreeMap<Oid, Capsule>` of `lut.rs`. -/
abbrev Lut := List (Oid × Capsule)

/-- The key list of a map, in iteration order (`BTreeMap::keys`). -/
def btreeKeys {β : Type} (m : List (Oid × β)) : List Oid := m.map Prod.fst

/-- The repository's forward object graph as the builder consumes it:
object kinds, the root tree of a commit, the entry list of a tree, and
whether `find_object(oid, Some(Commit))` succeeds. -/
structure ObjectSource : Type where
  kindOf : Oid → ObjKind
  rootTree : Oid → Oid
  entries : Oid → List Oid
  present : Oid → Bool

/-- One forward step of the traversal: from a tree to one of its entries
of kind tree or blob (entries of kind commit or other are skipped). -/
def FwdStep (S : ObjectSource) (t x : Oid) : Prop :=
  S.kindOf t = ObjKind.tree ∧ x ∈ S.entries t ∧
    (S.kindOf x = ObjKind.tree ∨ S.kindOf x = ObjKind.blob)

/-- Forward reachability through tree entries of kind tree/blob. -/
def Reaches (S : ObjectSource) : Oid → Oid → Prop :=
  Relation.ReflTransGen (FwdStep S)

section BtreeLemmas

variable {β : Type}

theorem btreeGet_insert_self (k : Oid) (v : β) (m : List (Oid × β)) :
    btreeGet k (btreeInsert k v m) = some v := by
  induction m with
  | nil => simp [btreeInsert, btreeGet]
  | cons hd rest ih =>
    obtain ⟨k', v'⟩ := hd
    by_cases h1 : k < k'
    · simp [btreeInsert, h1, btreeGet]
    · by_cases h2 : k = k'
      · simp [btreeInsert, h1, h2, btreeGet]
      · simp [btreeInsert, h1, h2, btreeGet, ih]

theorem btreeGet_insert_ne (k a : Oid) (v : β) (m : List (Oid × β)) (hne : a ≠ k) :
    btreeGet a (btreeInsert k v m) = btreeGet a m := by
  induction m with
  | nil => simp [btreeInsert, btreeGet, hne]
  | cons hd rest ih =>
    obtain ⟨k', v'⟩ := hd
    by_cases h1 : k < k'
    · by_cases h3 : a = k'
      · subst h3
        simp [btreeInsert, h1, btreeGet, hne]
      · simp [btreeInsert, h1, btreeGet, hne, h3]
    · by_cases h2 : k = k'
      · subst h2
        simp [btreeInsert, h1, btreeGet, hne]
      · by_cases h3 : a = k'
        · simp [btreeInsert, h1, h2, btreeGet, h3]
        · simp [btreeInsert, h1, h2, btreeGet, h3, ih]

theorem mem_keys_insert (k a : Oid) (v : β) (m : List (Oid × β)) :
    a ∈ btreeKeys (btreeInsert k v m) ↔ a = k ∨ a ∈ btreeKeys m := by
  induction m with
  | nil => simp [btreeInsert, btreeKeys]
  | cons hd rest ih =>
    obtain ⟨k', v'⟩ := hd
    by_cases h1 : k < k'
    · simp [btreeInsert, h1, btreeKeys]
    · by_cases h2 : k = k'
      · subst h2
        simp [btreeInsert, h1, btreeKeys]
      · simp [btreeInsert, h1, h2, btreeKeys] at ih ⊢
        tauto

theorem btreeGet_mem_keys {k : Oid} {m : List (Oid × β)} {v : β}
    (h : btreeGet k m = some v) : k ∈ btreeKeys m := by
  induction m with
  | nil => simp [btreeGet] at h
  | cons hd rest ih =>
    obtain ⟨k', v'⟩ := hd
    by_cases he : k = k'
    · simp [btreeKeys, he]
    · simp [btreeGet, he] at h
      simp [btreeKeys]
      exact Or.inr (by simpa [btreeKeys] using ih h)

theorem mem_keys_get_isSome {k : Oid} {m : List (Oid × β)}
    (h : k ∈ btreeKeys m) : ∃ v, btreeGet k m = some v := by
  induction m with
  | nil => simp [btreeKeys] at h
  | cons hd rest ih =>
    obtain ⟨k', v'⟩ := hd
    by_cases he : k = k'
    · exact ⟨v', by simp [btreeGet, he]⟩
    · simp [btreeKeys, he] at h
      obtain ⟨v, hv⟩ := ih (by simpa [btreeKeys] using h)
      exact ⟨v, by simp [btreeGet, he, hv]⟩

theorem btreeGet_none_not_mem {k : Oid} {m : List (Oid × β)}
    (h : btreeGet k m = none) : k ∉ btreeKeys m := by
  intro hmem
  obtain ⟨v, hv⟩ := mem_keys_get_isSome hmem
  rw [h] at hv
  exact Option.noConfusion hv

end BtreeLemmas

/-- `insert_parent_and_has_not_seen_child` (`lut.rs` 289-306): on an
occupied `Normal` entry push the parent and answer `false`; on an occupied
`Compact` entry change nothing and answer `false`; on a vacant entry
insert `Normal [parent]` and answer `true`. -/
def insert_parent_and_has_not_seen_child (parent_oid child_oid : Oid) (lut : Lut) :
    Bool × Lut :=
  match btreeGet child_oid lut with
  | some (Capsule.Normal parents) =>
      (false, btreeInsert child_oid (Capsule.Normal (parents ++ [parent_oid])) lut)
  | some (Capsule.Compact _) => (false, lut)
  | none => (true, btreeInsert child_oid (Capsule.Normal [parent_oid]) lut)

/-- The `Some(Blob)` arm of `recurse_tree` (`lut.rs` 358-365):
`lut.entry(item.id()).or_insert_with(|| Capsule::Normal(Vec::new()))`
followed by a push of the tree digest when the capsule is `Normal`. -/
def blobEntryPush (tree_oid item_oid : Oid) (lut : Lut) : Lut :=
  match btreeGet item_oid lut with
  | some (Capsule.Normal parents) =>
      btreeInsert item_oid (Capsule.Normal (parents ++ [tree_oid])) lut
  | some (Capsule.Compact _) => lut
  | none => btreeInsert item_oid (Capsule.Normal [tree_oid]) lut

/-- The `for item in tree.iter()` loop body of `recurse_tree`
(`lut.rs` 344-368), abstracted over the recursive call made on a freshly
inserted subtree (the recursion is tied at a given fuel in
`recurseTree`). -/
def recurseTreeItems (S : ObjectSource) (recur : Oid → Lut → Option (Lut × Nat))
    (tree_oid : Oid) : List Oid → Lut → Option (Lut × Nat)
  | [], lut => some (lut, 0)
  | item :: rest, lut =>
    match S.kindOf item with
    | ObjKind.tree =>
      match insert_parent_and_has_not_seen_child tree_oid item lut with
      | (true, lut1) =>
        match recur item lut1 with
        | none => none
        | some (lut2, r1) =>
          match recurseTreeItems S recur tree_oid rest lut2 with
          | none => none
          | some (lut3, r2) => some (lut3, r1 + r2)
      | (false, lut1) => recurseTreeItems S recur tree_oid rest lut1
    | ObjKind.blob =>
      match recurseTreeItems S recur tree_oid rest (blobEntryPush tree_oid item lut) with
      | none => none
      | some (lut1, r) => some (lut1, 1 + r)
    | _ => recurseTreeItems S recur tree_oid rest lut

/-- `recurse_tree` (`lut.rs` 341-370), with explicit fuel bounding the
recursion depth; `none` is fuel exhaustion (the Rust code recurses on the
acyclic forward graph and always terminates). Returns the updated table
and the number of blob references counted. -/
def recurseTree (S : ObjectSource) : Nat → Oid → Lut → Option (Lut × Nat)
  | 0, _, _ => none
  | Nat.succ fuel, tree_oid, lut =>
    recurseTreeItems S (recurseTree S fuel) tree_oid (S.entries tree_oid) lut

/-- The per-worker commit loop of `build` (`lut.rs` 239-258): for each
commit digest found as a commit object, insert it with an empty parent
list, link it to its root tree, and recurse into the tree when it is new. -/
def buildChunk (S : ObjectSource) (fuel : Nat) : List Oid → Lut → Option (Lut × Nat)
  | [], lut => some (lut, 0)
  | c :: cs, lut =>
    if S.present c then
      let lut1 := btreeInsert c (Capsule.Normal []) lut
      match insert_parent_and_has_not_seen_child c (S.rootTree c) lut1 with
      | (true, lut2) =>
        match recurseTree S fuel (S.rootTree c) lut2 with
        | none => none
        | some (lut3, r1) =>
          match buildChunk S fuel cs lut3 with
          | none => none
          | some (lut4, r2) => some (lut4, r1 + r2)
      | (false, lut2) => buildChunk S fuel cs lut2
    else buildChunk S fuel cs lut

/-- The reusable scratch buffers (`Stack` in the crate root): one stack of
indices for the `Compact` branch, one stack of digests for `Normal`. -/
structure Stack : Type where
  indices : List Nat := []
  oids : List Oid := []
deriving DecidableEq, Repr

/-- The `Normal`-branch worklist loop of `lookup_oid` (`lut.rs` 112-126).
The stack holds pending digests, top first (`Vec::pop` takes the back, so
`extend` is modelled by pushing the reversed parent list in front).
`none` models fuel exhaustion or one of the `unreachable!` panics. -/
def traverseNormal (lut : Lut) : Nat → List Oid → List Oid → Option (List Oid)
  | _, [], out => some out
  | 0, _ :: _, _ => none
  | Nat.succ fuel, oid :: stack, out =>
    match btreeGet oid lut with
    | some (Capsule.Normal parent_oids) =>
      if parent_oids = [] then traverseNormal lut fuel stack (out ++ [oid])
      else traverseNormal lut fuel (parent_oids.reverse ++ stack) out
    | some (Capsule.Compact _) => none
    | none => none

/-- The `Compact`-branch worklist loop of `lookup_oid` (`lut.rs` 92-106);
indices are resolved through the sorted key list `all_oids`. -/
def traverseCompact (lut : Lut) (all_oids : List Oid) :
    Nat → List Nat → List Oid → Option (List Oid)
  | _, [], out => some out
  | 0, _ :: _, _ => none
  | Nat.succ fuel, idx :: stack, out =>
    match all_oids[idx]? with
    | none => none
    | some oid =>
      match btreeGet oid lut with
      | some (Capsule.Compact parent_indices) =>
        if parent_indices = [] then traverseCompact lut all_oids fuel stack (out ++ [oid])
        else traverseCompact lut all_oids fuel (parent_indices.reverse ++ stack) out
      | some (Capsule.Normal _) => none
      | none => none

/-- `lookup_oid` (`lut.rs` 79-129): dispatch on the capsule of the queried
digest; a miss leaves both scratch and output untouched. On success the
scratch stack that was used has been drained back to empty. -/
def lookup_oid (blob : Oid) (lut : Lut) (all_oids : List Oid) (fuel : Nat)
    (stack : Stack) (out : List Oid) : Option (Stack × List Oid) :=
  match btreeGet blob lut with
  | none => some (stack, out)
  | some (Capsule.Compact parent_indices) =>
    (traverseCompact lut all_oids fuel parent_indices.reverse out).map
      (fun out' => ({ stack with indices := [] }, out'))
  | some (Capsule.Normal parent_oids) =>
    (traverseNormal lut fuel parent_oids.reverse out).map
      (fun out' => ({ stack with oids := [] }, out'))

/-- `commits_by_blob` (`lut.rs` 66-77): clear the output, then run
`lookup_oid` against every per-chunk table in turn. -/
def commits_by_blob (blob : Oid) (luts : List Lut) (all_oids : List (List Oid))
    (fuel : Nat) (stack : Stack) (_out : List Oid) : Option (Stack × List Oid) :=
  go (luts.zip all_oids) stack ([] : List Oid)
where
  /-- The `for (lut, all_oids) in luts.iter().zip(all_oids)` loop. -/
  go : List (Lut × List Oid) → Stack → List Oid → Option (Stack × List Oid)
    | [], st, acc => some (st, acc)
    | (lut, oids) :: rest, st, acc =>
      match lookup_oid blob lut oids fuel st acc with
      | none => none
      | some (st', acc') => go rest st' acc'

/-- `commit_oids_table` (`lut.rs` 60-64): the sorted key list of each
per-chunk table. -/
def commit_oids_table (luts : List Lut) : List (List Oid) :=
  luts.map btreeKeys

/-- `slice::binary_search` over the sorted, duplicate-free key list: on
such a list the unique matching position is the first one, so the model
returns the first index holding the key (`none` models `Err`, which the
caller turns into a panic through `expect`). -/
def binarySearch (xs : List Oid) (k : Oid) : Option Nat :=
  match xs with
  | [] => none
  | x :: rest => if x = k then some 0 else (binarySearch rest k).map (· + 1)

/-- The parent-rewriting loop of `compact_memory` (`lut.rs` 397-402):
each parent digest is replaced by its binary-search index in the sorted
key list; `none` models the `expect("parent to be found in sorted list")`
panic. -/
def compactParents (all_oids : List Oid) : List Oid → Option (List Nat)
  | [] => some []
  | p :: rest =>
    match binarySearch all_oids p with
    | none => none
    | some idx => (compactParents all_oids rest).map (fun t => idx :: t)

/-- The per-capsule rewrite of `compact_memory` (`lut.rs` 393-404): a
`Normal` capsule becomes the `Compact` capsule of its rewritten parents;
any other capsule is replaced by `Compact []` (the initial empty
`compacted` vector). -/
def compactCapsule (all_oids : List Oid) : Capsule → Option Capsule
  | Capsule.Normal parent_oids =>
    (compactParents all_oids parent_oids).map Capsule.Compact
  | Capsule.Compact _ => some (Capsule.Compact [])

/-- The `values_mut()` loop of `compact_memory`, in key order. -/
def compactEntries (all_oids : List Oid) : Lut → Option Lut
  | [] => some []
  | (k, c) :: rest =>
    match compactCapsule all_oids c with
    | none => none
    | some c2 =>
      match compactEntries all_oids rest with
      | none => none
      | some rest2 => some ((k, c2) :: rest2)

/-- `compact_memory` (`lut.rs` 391-410): rewrite every capsule against
the key list computed up front. -/
def compact_memory (lut : Lut) : Option Lut :=
  compactEntries (btreeKeys lut) lut

/-- `ReverseGraph` (`lut.rs` 15-20): dense vertex array `V`, parallel
edge-list array `E`, and digest-to-id map `M`. -/
structure ReverseGraph : Type where
  vertices_to_oid : List Oid := []
  vertices_to_edges : List (List Nat) := []
  oids_to_vertices : List (Oid × Nat) := []
deriving DecidableEq, Repr

/-- `ReverseGraph::append` (`lut.rs` 33-39): push the digest, map it to
the fresh index (overwriting any previous mapping, as `BTreeMap::insert`
does), push an empty edge list, return the fresh index. -/
def ReverseGraph.append (g : ReverseGraph) (oid : Oid) : ReverseGraph × Nat :=
  let idx := g.vertices_to_oid.length
  ({ vertices_to_oid := g.vertices_to_oid ++ [oid],
     vertices_to_edges := g.vertices_to_edges ++ [[]],
     oids_to_vertices := btreeInsert oid idx g.oids_to_vertices }, idx)

/-- `ReverseGraph::insert_parent_get_new_child_id` (`lut.rs` 40-54).
On an occupied entry the parent id is pushed onto the mapped vertex's edge
list (`none` models the panic of `self.vertices_to_edges[idx]` when the
mapped index is out of range); on a vacant entry a new vertex with edge
list `[parent]` is appended and its id returned. -/
def ReverseGraph.insert_parent_get_new_child_id (g : ReverseGraph) (parent : Nat)
    (child : Oid) : Option (ReverseGraph × Option Nat) :=
  match btreeGet child g.oids_to_vertices with
  | some idx =>
    match g.vertices_to_edges[idx]? with
    | none => none
    | some edges =>
      some ({ g with vertices_to_edges := g.vertices_to_edges.set idx (edges ++ [parent]) },
            none)
  | none =>
    let child_idx := g.vertices_to_oid.length
    some ({ vertices_to_oid := g.vertices_to_oid ++ [child],
            vertices_to_edges := g.vertices_to_edges ++ [[parent]],
            oids_to_vertices := btreeInsert child child_idx g.oids_to_vertices },
          some child_idx)

/-- `ReverseGraph::len` (`lut.rs` 55-57). -/
def ReverseGraph.len (g : ReverseGraph) : Nat := g.vertices_to_oid.length

/-- The `for item in tree.iter()` loop body of `recurse_tree2`: entries of
kind tree recurse when new, entries of kind blob only add an edge, and
entries of kind commit or other are skipped. Abstracted over the
recursive call made on a freshly inserted subtree. -/
def recurseTree2Items (S : ObjectSource)
    (recur : Oid → Nat → ReverseGraph → Option (ReverseGraph × Nat))
    (tree_idx : Nat) : List Oid → ReverseGraph → Option (ReverseGraph × Nat)
  | [], g => some (g, 0)
  | item :: rest, g =>
    match S.kindOf item with
    | ObjKind.tree =>
      match g.insert_parent_get_new_child_id tree_idx item with
      | none => none
      | some (g1, some item_idx) =>
        match recur item item_idx g1 with
        | none => none
        | some (g2, r1) =>
          match recurseTree2Items S recur tree_idx rest g2 with
          | none => none
          | some (g3, r2) => some (g3, r1 + r2)
      | some (g1, none) => recurseTree2Items S recur tree_idx rest g1
    | ObjKind.blob =>
      match g.insert_parent_get_new_child_id tree_idx item with
      | none => none
      | some (g1, _) =>
        match recurseTree2Items S recur tree_idx rest g1 with
        | none => none
        | some (g2, r) => some (g2, 1 + r)
    | _ => recurseTree2Items S recur tree_idx rest g

/-- `recurse_tree2` (`lut.rs` 308-339), fuelled like `recurseTree`. -/
def recurseTree2 (S : ObjectSource) : Nat → Oid → Nat → ReverseGraph →
    Option (ReverseGraph × Nat)
  | 0, _, _, _ => none
  | Nat.succ fuel, tree_oid, tree_idx, g =>
    recurseTree2Items S (fun o i gr => recurseTree2 S fuel o i gr) tree_idx
      (S.entries tree_oid) g

/-- The per-worker commit loop of `build2` (`lut.rs` 158-180): append the
commit as a fresh vertex, link it to its root tree, recurse when the tree
is new. -/
def buildChunk2 (S : ObjectSource) (fuel : Nat) : List Oid → ReverseGraph →
    Option (ReverseGraph × Nat)
  | [], g => some (g, 0)
  | c :: cs, g =>
    if S.present c then
      let app := g.append c
      match app.1.insert_parent_get_new_child_id app.2 (S.rootTree c) with
      | none => none
      | some (g2, some tree_idx) =>
        match recurseTree2 S fuel (S.rootTree c) tree_idx g2 with
        | none => none
        | some (g3, r1) =>
          match buildChunk2 S fuel cs g3 with
          | none => none
          | some (g4, r2) => some (g4, r1 + r2)
      | some (g2, none) => buildChunk2 S fuel cs g2
    else buildChunk2 S fuel cs g

/-- Worker of `sliceChunks`, fuelled by the input length. -/
def sliceChunksGo {α : Type} (chunk_size : Nat) : Nat → List α → List (List α)
  | _, [] => []
  | 0, xs => [xs]
  | Nat.succ fuelLeft, xs =>
    xs.take chunk_size :: sliceChunksGo chunk_size fuelLeft (xs.drop chunk_size)

/-- `slice::chunks(chunk_size)`: yields contiguous chunks of at most
`chunk_size` elements; `none` models the Rust panic
`assert!(chunk_size != 0)` raised when the chunk size is zero. -/
def sliceChunks {α : Type} (chunk_size : Nat) (xs : List α) : Option (List (List α)) :=
  if chunk_size = 0 then none else some (sliceChunksGo chunk_size xs.length xs)

/-- The partitioning expression of `build2` (`lut.rs` 149) and `build`
(`lut.rs` 229): `commits.chunks(commits.len() / num_threads)`. -/
def partitionCommits (commits : List Oid) (num_threads : Nat) :
    Option (List (List Oid)) :=
  sliceChunks (commits.length / num_threads) commits

/-- Lowercase-hex rendering of a digest (the `Display` of `git2::Oid`);
the fixed 40-character width is immaterial to the protocol claims. -/
def renderOid (o : Oid) : String := String.mk (Nat.toDigits 16 o)

/-- Value of one hexadecimal character, if any. -/
def hexVal (c : Char) : Option Nat :=
  if '0' ≤ c ∧ c ≤ '9' then some (c.toNat - '0'.toNat)
  else if 'a' ≤ c ∧ c ≤ 'f' then some (c.toNat - 'a'.toNat + 10)
  else if 'A' ≤ c ∧ c ≤ 'F' then some (c.toNat - 'A'.toNat + 10)
  else none

/-- Accumulating hex parse of a line. -/
def parseOidChars : List Char → Nat → Option Oid
  | [], acc => some acc
  | c :: rest, acc =>
    match hexVal c with
    | none => none
    | some v => parseOidChars rest (acc * 16 + v)

/-- `Oid::from_str` on one input line: succeeds exactly on non-empty
all-hex lines (the fixed-width check of the real parser is immaterial to
the protocol claims). -/
def parseOid (s : String) : Option Oid :=
  match s.toList with
  | [] => none
  | cs => parseOidChars cs 0

/-- The output-line construction of `deplete_requests_from_stdin`
(`cli.rs` 36-45): write each commit digest into the buffer, a single
space after it only when it is not the last, then a newline. -/
def obufWrite (len : Nat) : Nat → List Oid → String
  | _, [] => ""
  | cid, c :: rest =>
    renderOid c ++ (if cid + 1 < len then " " else "") ++ obufWrite len (cid + 1) rest

/-- The complete output line of one query (`obuf` of `cli.rs`). -/
def obufFor (commits : List Oid) : String :=
  obufWrite commits.length 0 commits ++ "\n"

/-- Observable standard-output actions of the query loop. -/
inductive OutEvent : Type where
  | write : String → OutEvent
  | flush : OutEvent
deriving DecidableEq, Repr

/-- The streaming-query loop of `deplete_requests_from_stdin`
(`cli.rs` 29-57), parametrized by the per-digest query results
(`graph.lookup` resolved commits): for each input line, parse it
(`Oid::from_str`, whose error aborts the stream through `?`), format one
output line, write it, and flush. -/
def depleteRequests (lookupFn : Oid → List Oid) : List String → Option (List OutEvent)
  | [] => some []
  | line :: rest =>
    match parseOid line with
    | none => none
    | some oid =>
      match depleteRequests lookupFn rest with
      | none => none
      | some evs => some (OutEvent.write (obufFor (lookupFn oid)) :: OutEvent.flush :: evs)

/-- The spec's form of one streaming-query output line: the hex commit
digests joined by single spaces, terminated by a newline, with no other
separators. -/
def specQueryLine (commits : List Oid) : String :=
  String.intercalate " " (commits.map renderOid) ++ "\n"

theorem intercalate_go_append (s : String) (as : List String) :
    ∀ acc1 acc2 : String,
      String.intercalate.go (acc1 ++ acc2) s as =
        acc1 ++ String.intercalate.go acc2 s as := by
  induction as with
  | nil =>
    intro a b
    simp [String.intercalate.go]
  | cons a t ih =>
    intro acc1 acc2
    show String.intercalate.go (acc1 ++ acc2 ++ s ++ a) s t =
      acc1 ++ String.intercalate.go (acc2 ++ s ++ a) s t
    rw [String.append_assoc, String.append_assoc, ih acc1 (acc2 ++ (s ++ a))]
    simp [String.append_assoc]

theorem intercalate_cons_ne (a : String) (rest : List String) (h : rest ≠ []) :
    String.intercalate " " (a :: rest) = a ++ " " ++ String.intercalate " " rest := by
  cases rest with
  | nil => exact absurd rfl h
  | cons b t =>
    show String.intercalate.go a " " (b :: t) = _
    show String.intercalate.go (a ++ " " ++ b) " " t = _
    rw [String.append_assoc, intercalate_go_append " " t a (" " ++ b)]
    rw [intercalate_go_append " " t " " b]
    simp [String.intercalate, String.append_assoc]

theorem obufWrite_eq_intercalate (cs : List Oid) :
    ∀ k : Nat, obufWrite (k + cs.length) k cs =
      String.intercalate " " (cs.map renderOid) := by
  induction cs with
  | nil =>
    intro k
    simp [obufWrite, String.intercalate]
  | cons c rest ih =>
    intro k
    cases rest with
    | nil => simp [obufWrite, String.intercalate, String.intercalate.go]
    | cons r t =>
      have hcond : k + 1 < k + (c :: r :: t).length := by
        simp only [List.length_cons]
        omega
      have hlen : k + (c :: r :: t).length = (k + 1) + (r :: t).length := by
        simp only [List.length_cons]
        omega
      calc obufWrite (k + (c :: r :: t).length) k (c :: r :: t)
          = renderOid c ++ (if k + 1 < k + (c :: r :: t).length then " " else "") ++
              obufWrite (k + (c :: r :: t).length) (k + 1) (r :: t) := rfl
        _ = renderOid c ++ " " ++
              obufWrite ((k + 1) + (r :: t).length) (k + 1) (r :: t) := by
              rw [if_pos hcond, hlen]
        _ = renderOid c ++ " " ++ String.intercalate " " ((r :: t).map renderOid) := by
              rw [ih (k + 1)]
        _ = String.intercalate " " ((c :: r :: t).map renderOid) := by
              simp only [List.map_cons]
              rw [intercalate_cons_ne (renderOid c) (renderOid r :: t.map renderOid)
                (by simp)]

theorem obufFor_eq_specQueryLine (cs : List Oid) : obufFor cs = specQueryLine cs := by
  have h := obufWrite_eq_intercalate cs 0
  simp only [Nat.zero_add] at h
  simp [obufFor, specQueryLine, h]

/-- C8: in streaming-query mode, every input line holding a valid hex
digest yields exactly one output line of space-separated hex commit
digests terminated by a newline and nothing else (so a query with no
matches yields an empty line), followed by a flush of standard output. -/
theorem c8_streaming_protocol (lookupFn : Oid → List Oid) (lines : List String)
    (h : ∀ l ∈ lines, (parseOid l).isSome) :
    depleteRequests lookupFn lines =
      some ((lines.map (fun l =>
        [OutEvent.write (specQueryLine (lookupFn ((parseOid l).getD 0))),
         OutEvent.flush])).flatten) ∧
    specQueryLine [] = "\n" := by
  constructor
  · induction lines with
    | nil => simp [depleteRequests]
    | cons line rest ih =>
      have hline := h line (by simp)
      obtain ⟨oid, hoid⟩ := Option.isSome_iff_exists.mp hline
      have hrest := ih (fun l hl => h l (by simp [hl]))
      simp [depleteRequests, hoid, hrest, obufFor_eq_specQueryLine]
  · simp [specQueryLine, String.intercalate]

theorem c8_streaming_protocol_witness :
    depleteRequests (fun _ => [10, 11]) ["ff"] =
      some ((["ff"].map (fun l =>
        [OutEvent.write (specQueryLine ((fun _ => [10, 11]) ((parseOid l).getD 0))),
         OutEvent.flush])).flatten) ∧
    specQueryLine [] = "\n" :=
  c8_streaming_protocol (fun _ => [10, 11]) ["ff"] (by decide)

/-- C10: when the child digest is already mapped to a Compact capsule,
insert_parent_and_has_not_seen_child returns false and leaves the map
completely unchanged: the parent edge is silently dropped. -/
theorem c10_insert_parent_compact_noop (parent_oid child_oid : Oid) (lut : Lut)
    (v : List Nat) (h : btreeGet child_oid lut = some (Capsule.Compact v)) :
    insert_parent_and_has_not_seen_child parent_oid child_oid lut = (false, lut) := by
  simp [insert_parent_and_has_not_seen_child, h]

theorem c10_insert_parent_compact_noop_witness :
    insert_parent_and_has_not_seen_child 5 1 [(1, Capsule.Compact [0])] =
      (false, [(1, Capsule.Compact [0])]) :=
  c10_insert_parent_compact_noop 5 1 [(1, Capsule.Compact [0])] [0] (by decide)

/-- C3 (amended): append pushes a new vertex with the given digest and an
empty parent list, records the digest-to-id mapping and returns the new
id; but when the digest is already mapped it does not fail: it appends a
duplicate vertex and silently redirects the mapping to the new id. -/
theorem c3_append_behavior (g : ReverseGraph) (oid : Oid) :
    g.append oid =
      ({ vertices_to_oid := g.vertices_to_oid ++ [oid],
         vertices_to_edges := g.vertices_to_edges ++ [[]],
         oids_to_vertices := btreeInsert oid g.vertices_to_oid.length g.oids_to_vertices },
       g.vertices_to_oid.length) ∧
    btreeGet oid (g.append oid).1.oids_to_vertices = some g.vertices_to_oid.length := by
  refine ⟨rfl, ?_⟩
  simp [ReverseGraph.append, btreeGet_insert_self]

/-- C3 counterexample: appending the same digest twice is a silent
success, not a failure. The second append returns the fresh id 1 and a
two-vertex graph whose map sends the digest to the newer vertex, so the
invariant that the map inverts the vertex array is broken at index 0. -/
theorem c3_append_duplicate_is_silent :
    (((ReverseGraph.mk [] [] []).append 5).1.append 5).2 = 1 ∧
    (((ReverseGraph.mk [] [] []).append 5).1.append 5).1.len = 2 ∧
    ((((ReverseGraph.mk [] [] []).append 5).1.append 5).1.vertices_to_oid[0]? = some 5 ∧
     btreeGet 5 ((((ReverseGraph.mk [] [] []).append 5).1.append 5).1.oids_to_vertices) =
       some 1) := by
  decide

/-- C4: insert_parent on an already-mapped child pushes the parent id onto
the existing child's edge list and returns none without creating a vertex;
on an unmapped child it appends a vertex whose edge list is exactly
the one-element parent list, records the mapping, and returns the previous
vertex count as the new id. -/
theorem c4_insert_parent_spec (g : ReverseGraph) (parent : Nat) (child : Oid) :
    (∀ idx, btreeGet child g.oids_to_vertices = some idx →
      ∀ edges, g.vertices_to_edges[idx]? = some edges →
        g.insert_parent_get_new_child_id parent child =
          some ({ g with vertices_to_edges :=
                    g.vertices_to_edges.set idx (edges ++ [parent]) }, none)) ∧
    (btreeGet child g.oids_to_vertices = none →
      g.insert_parent_get_new_child_id parent child =
        some ({ vertices_to_oid := g.vertices_to_oid ++ [child],
                vertices_to_edges := g.vertices_to_edges ++ [[parent]],
                oids_to_vertices := btreeInsert child g.len g.oids_to_vertices },
              some g.len)) := by
  constructor
  · intro idx hidx edges hedges
    simp [ReverseGraph.insert_parent_get_new_child_id, hidx, hedges]
  · intro hnone
    simp [ReverseGraph.insert_parent_get_new_child_id, hnone, ReverseGraph.len]

theorem c4_insert_parent_spec_witness :
    (ReverseGraph.mk [7] [[]] [(7, 0)]).insert_parent_get_new_child_id 3 7 =
      some (ReverseGraph.mk [7] [[3]] [(7, 0)], none) ∧
    (ReverseGraph.mk [7] [[]] [(7, 0)]).insert_parent_get_new_child_id 3 9 =
      some (ReverseGraph.mk [7, 9] [[], [3]] [(7, 0), (9, 1)], some 1) := by
  constructor
  · have h := (c4_insert_parent_spec (ReverseGraph.mk [7] [[]] [(7, 0)]) 3 7).1
      0 (by decide) [] (by decide)
    exact h.trans (by decide)
  · have h := (c4_insert_parent_spec (ReverseGraph.mk [7] [[]] [(7, 0)]) 3 9).2 (by decide)
    exact h.trans (by decide)

/-- C5: the claim is right and the code is wrong. The per-worker
partitioning calls slice::chunks with chunk size equal to the commit count
divided by the worker count, which is zero whenever the commit list is
empty or shorter than the worker count, and slice::chunks panics on a
zero chunk size. The build therefore aborts instead of producing an empty
index. -/
theorem c5_partition_panics (commits : List Oid) (num_threads : Nat)
    (h : commits.length < num_threads) :
    partitionCommits commits num_threads = none := by
  have hz : commits.length / num_threads = 0 := Nat.div_eq_of_lt h
  simp [partitionCommits, sliceChunks, hz]

theorem c5_partition_panics_witness :
    partitionCommits [] 4 = none :=
  c5_partition_panics [] 4 (by decide)

/-- C7: a query for a digest absent from every per-chunk map is not an
error: commits_by_blob clears the output, each lookup_oid hits the miss
arm and touches nothing, and the call returns normally with an empty
output and the scratch stack unchanged. -/
theorem c7_missing_digest_lookup (blob : Oid) (luts : List Lut)
    (all_oids : List (List Oid)) (fuel : Nat) (stack : Stack) (out : List Oid)
    (h : ∀ lut ∈ luts, btreeGet blob lut = none) :
    commits_by_blob blob luts all_oids fuel stack out = some (stack, []) := by
  have go_miss : ∀ pairs : List (Lut × List Oid), (∀ p ∈ pairs, btreeGet blob p.1 = none) →
      ∀ st acc, commits_by_blob.go blob fuel pairs st acc = some (st, acc) := by
    intro pairs
    induction pairs with
    | nil =>
      intro _ st acc
      simp [commits_by_blob.go]
    | cons p rest ih =>
      intro hp st acc
      obtain ⟨lut, oids⟩ := p
      have hmiss : btreeGet blob lut = none := hp (lut, oids) (by simp)
      simp [commits_by_blob.go, lookup_oid, hmiss]
      exact ih (fun q hq => hp q (by simp [hq])) st acc
  have hz : ∀ p ∈ luts.zip all_oids, btreeGet blob p.1 = none := by
    intro p hp
    exact h p.1 (List.of_mem_zip hp).1
  simpa [commits_by_blob] using go_miss (luts.zip all_oids) hz stack []

theorem c7_missing_digest_lookup_witness :
    commits_by_blob 9 [[(1, Capsule.Normal [])]] [[1]] 5
      (Stack.mk [] []) [3] = some (Stack.mk [] [], []) :=
  c7_missing_digest_lookup 9 [[(1, Capsule.Normal [])]] [[1]] 5
    (Stack.mk [] []) [3] (by decide)

/-- Well-formedness of the object source, as git guarantees it: a digest
found as a commit object is of commit kind, its root tree is a tree
object, and a height function witnesses acyclicity of the forward graph. -/
structure SourceWf (S : ObjectSource) (hgt : Oid → Nat) : Prop where
  presentCommit : ∀ c, S.present c = true → S.kindOf c = ObjKind.commit
  rootIsTree : ∀ c, S.present c = true → S.kindOf (S.rootTree c) = ObjKind.tree
  heightDec : ∀ t x, FwdStep S t x → hgt x < hgt t

/-- A forward edge the builder must record: either from a found commit to
its root tree, or from an already-inserted tree to one of its tree/blob
entries. -/
def FwdEdge (S : ObjectSource) (F : List Oid) (lut : Lut) (p x : Oid) : Prop :=
  (p ∈ F ∧ S.rootTree p = x) ∨ (p ∈ btreeKeys lut ∧ FwdStep S p x)

/-- The builder's invariant over the capsule table during `buildChunk`.
`F` lists the commits inserted so far; `M` excuses the forward edges whose
insertion is still pending on the recursion stack. -/
structure BuildInv (S : ObjectSource) (F : List Oid) (M : Oid → Oid → Prop)
    (lut : Lut) : Prop where
  keysSound : ∀ x ∈ btreeKeys lut,
    (S.kindOf x = ObjKind.commit ∧ x ∈ F) ∨
    ((S.kindOf x = ObjKind.tree ∨ S.kindOf x = ObjKind.blob) ∧
      ∃ c ∈ F, Reaches S (S.rootTree c) x)
  commitsF : ∀ c ∈ F, S.kindOf c = ObjKind.commit ∧
    btreeGet c lut = some (Capsule.Normal [])
  capsules : ∀ x ∈ btreeKeys lut,
    (S.kindOf x = ObjKind.tree ∨ S.kindOf x = ObjKind.blob) →
    ∃ ps, btreeGet x lut = some (Capsule.Normal ps) ∧ ps ≠ [] ∧
      ∀ p ∈ ps, FwdEdge S F lut p x
  edgeDone : ∀ p x, FwdEdge S F lut p x → M p x ∨
    ∃ ps, btreeGet x lut = some (Capsule.Normal ps) ∧ p ∈ ps

theorem fwdEdge_mono {S : ObjectSource} {F F' : List Oid} {lut lut' : Lut} {p x : Oid}
    (hF : ∀ a ∈ F, a ∈ F') (hK : ∀ a ∈ btreeKeys lut, a ∈ btreeKeys lut')
    (h : FwdEdge S F lut p x) : FwdEdge S F' lut' p x := by
  rcases h with ⟨hp, hr⟩ | ⟨hp, hs⟩
  · exact Or.inl ⟨hF p hp, hr⟩
  · exact Or.inr ⟨hK p hp, hs⟩

/-- Pushing a parent onto an existing tree/blob capsule preserves the
invariant, discharging the pending edge being inserted. -/
theorem BuildInv.push {S : ObjectSource} {F : List Oid} {M M' : Oid → Oid → Prop}
    {lut : Lut} {p0 x0 : Oid} {ps0 : List Oid}
    (inv : BuildInv S F M lut)
    (hget : btreeGet x0 lut = some (Capsule.Normal ps0))
    (hx0 : S.kindOf x0 = ObjKind.tree ∨ S.kindOf x0 = ObjKind.blob)
    (hedge : FwdEdge S F lut p0 x0)
    (hM : ∀ p x, M p x → M' p x ∨ (p = p0 ∧ x = x0)) :
    BuildInv S F M' (btreeInsert x0 (Capsule.Normal (ps0 ++ [p0])) lut) := by
  have hx0mem : x0 ∈ btreeKeys lut := btreeGet_mem_keys hget
  have hkeys : ∀ a, a ∈ btreeKeys (btreeInsert x0 (Capsule.Normal (ps0 ++ [p0])) lut) ↔
      a ∈ btreeKeys lut := by
    intro a
    rw [mem_keys_insert]
    constructor
    · rintro (rfl | ha)
      · exact hx0mem
      · exact ha
    · exact Or.inr
  have hgetNe : ∀ a, a ≠ x0 →
      btreeGet a (btreeInsert x0 (Capsule.Normal (ps0 ++ [p0])) lut) = btreeGet a lut :=
    fun a ha => btreeGet_insert_ne x0 a _ lut ha
  have hcne : ∀ c, S.kindOf c = ObjKind.commit → c ≠ x0 := by
    intro c hc heq
    subst heq
    rcases hx0 with h | h <;> rw [hc] at h <;> exact ObjKind.noConfusion h
  refine ⟨?_, ?_, ?_, ?_⟩
  · intro x hx
    exact inv.keysSound x ((hkeys x).mp hx)
  · intro c hc
    obtain ⟨hk, hg⟩ := inv.commitsF c hc
    exact ⟨hk, by rw [hgetNe c (hcne c hk)]; exact hg⟩
  · intro x hx hxk
    by_cases hxx : x = x0
    · subst hxx
      refine ⟨ps0 ++ [p0], btreeGet_insert_self _ _ _, by simp, ?_⟩
      intro p hp
      rcases List.mem_append.mp hp with hp | hp
      · obtain ⟨ps, hps, _, hall⟩ := inv.capsules x hx0mem hx0
        rw [hget] at hps
        obtain rfl : ps0 = ps := by injection hps with h; injection h
        exact fwdEdge_mono (fun a ha => ha) (fun a ha => (hkeys a).mpr ha) (hall p hp)
      · obtain rfl : p = p0 := by simpa using hp
        exact fwdEdge_mono (fun a ha => ha) (fun a ha => (hkeys a).mpr ha) hedge
    · obtain ⟨ps, hps, hne, hall⟩ := inv.capsules x ((hkeys x).mp hx) hxk
      refine ⟨ps, by rw [hgetNe x hxx]; exact hps, hne, ?_⟩
      intro p hp
      exact fwdEdge_mono (fun a ha => ha) (fun a ha => (hkeys a).mpr ha) (hall p hp)
  · intro p x hpx
    have hold : FwdEdge S F lut p x := by
      rcases hpx with ⟨hp, hr⟩ | ⟨hp, hs⟩
      · exact Or.inl ⟨hp, hr⟩
      · exact Or.inr ⟨(hkeys p).mp hp, hs⟩
    rcases inv.edgeDone p x hold with hm | ⟨ps, hps, hmem⟩
    · rcases hM p x hm with hm' | ⟨hpe, hxe⟩
      · exact Or.inl hm'
      · subst hpe
        subst hxe
        refine Or.inr ⟨ps0 ++ [p], btreeGet_insert_self _ _ _, by simp⟩
    · by_cases hxx : x = x0
      · subst hxx
        rw [hget] at hps
        obtain rfl : ps0 = ps := by injection hps with h; injection h
        exact Or.inr ⟨ps0 ++ [p0], btreeGet_insert_self _ _ _, by
          exact List.mem_append.mpr (Or.inl hmem)⟩
      · exact Or.inr ⟨ps, by rw [hgetNe x hxx]; exact hps, hmem⟩

/-- Inserting a fresh tree/blob key with a one-element parent list
preserves the invariant, provided the new key's own outgoing edges are
excused by the new pending relation. -/
theorem BuildInv.insertNew {S : ObjectSource} {F : List Oid} {M M' : Oid → Oid → Prop}
    {lut : Lut} {p0 x0 : Oid}
    (inv : BuildInv S F M lut)
    (hget : btreeGet x0 lut = none)
    (hx0 : S.kindOf x0 = ObjKind.tree ∨ S.kindOf x0 = ObjKind.blob)
    (hreach : ∃ c ∈ F, Reaches S (S.rootTree c) x0)
    (hedge : FwdEdge S F lut p0 x0)
    (hM : ∀ p x, M p x → M' p x ∨ (p = p0 ∧ x = x0))
    (hMnew : ∀ y, FwdStep S x0 y → M' x0 y) :
    BuildInv S F M' (btreeInsert x0 (Capsule.Normal [p0]) lut) := by
  have hx0notmem : x0 ∉ btreeKeys lut := btreeGet_none_not_mem hget
  have hkeys : ∀ a, a ∈ btreeKeys (btreeInsert x0 (Capsule.Normal [p0]) lut) ↔
      a = x0 ∨ a ∈ btreeKeys lut := fun a => mem_keys_insert x0 a _ lut
  have hgetNe : ∀ a, a ≠ x0 →
      btreeGet a (btreeInsert x0 (Capsule.Normal [p0]) lut) = btreeGet a lut :=
    fun a ha => btreeGet_insert_ne x0 a _ lut ha
  have hcne : ∀ c, S.kindOf c = ObjKind.commit → c ≠ x0 := by
    intro c hc heq
    subst heq
    rcases hx0 with h | h <;> rw [hc] at h <;> exact ObjKind.noConfusion h
  have hKmono : ∀ a ∈ btreeKeys lut, a ∈ btreeKeys (btreeInsert x0 (Capsule.Normal [p0]) lut) :=
    fun a ha => (hkeys a).mpr (Or.inr ha)
  refine ⟨?_, ?_, ?_, ?_⟩
  · intro x hx
    rcases (hkeys x).mp hx with hxx | hx'
    · subst hxx
      exact Or.inr ⟨hx0, hreach⟩
    · exact inv.keysSound x hx'
  · intro c hc
    obtain ⟨hk, hg⟩ := inv.commitsF c hc
    exact ⟨hk, by rw [hgetNe c (hcne c hk)]; exact hg⟩
  · intro x hx hxk
    by_cases hxx : x = x0
    · subst hxx
      refine ⟨[p0], btreeGet_insert_self _ _ _, by simp, ?_⟩
      intro p hp
      obtain rfl : p = p0 := by simpa using hp
      exact fwdEdge_mono (fun a ha => ha) hKmono hedge
    · obtain ⟨ps, hps, hne, hall⟩ := inv.capsules x (by
        rcases (hkeys x).mp hx with h | h
        · exact absurd h hxx
        · exact h) hxk
      refine ⟨ps, by rw [hgetNe x hxx]; exact hps, hne, ?_⟩
      intro p hp
      exact fwdEdge_mono (fun a ha => ha) hKmono (hall p hp)
  · intro p x hpx
    rcases hpx with ⟨hp, hr⟩ | ⟨hp, hs⟩
    · -- a root edge; its source is a commit in F, so p was already a key
      rcases inv.edgeDone p x (Or.inl ⟨hp, hr⟩) with hm | ⟨ps, hps, hmem⟩
      · rcases hM p x hm with hm' | ⟨hpe, hxe⟩
        · exact Or.inl hm'
        · subst hpe
          subst hxe
          exact Or.inr ⟨[p], btreeGet_insert_self _ _ _, by simp⟩
      · have hxne : x ≠ x0 := by
          intro heq
          subst heq
          rw [hget] at hps
          exact Option.noConfusion hps
        exact Or.inr ⟨ps, by rw [hgetNe x hxne]; exact hps, hmem⟩
    · rcases (hkeys p).mp hp with hpx0 | hpold
      · subst hpx0
        exact Or.inl (hMnew x hs)
      · rcases inv.edgeDone p x (Or.inr ⟨hpold, hs⟩) with hm | ⟨ps, hps, hmem⟩
        · rcases hM p x hm with hm' | ⟨hpe, hxe⟩
          · exact Or.inl hm'
          · subst hpe
            subst hxe
            exact Or.inr ⟨[p], btreeGet_insert_self _ _ _, by simp⟩
        · have hxne : x ≠ x0 := by
            intro heq
            subst heq
            rw [hget] at hps
            exact Option.noConfusion hps
          exact Or.inr ⟨ps, by rw [hgetNe x hxne]; exact hps, hmem⟩

/-- Inserting a fresh commit with an empty parent list extends `F` and
leaves exactly the commit's root edge pending. -/
theorem BuildInv.insertCommit {S : ObjectSource} {F : List Oid} {M : Oid → Oid → Prop}
    {lut : Lut} {c : Oid}
    (inv : BuildInv S F M lut)
    (hc : S.kindOf c = ObjKind.commit)
    (hcF : c ∉ F) :
    BuildInv S (c :: F) (fun p x => M p x ∨ (p = c ∧ x = S.rootTree c))
      (btreeInsert c (Capsule.Normal []) lut) := by
  have hcnot : c ∉ btreeKeys lut := by
    intro hmem
    rcases inv.keysSound c hmem with ⟨_, hinF⟩ | ⟨hk, _⟩
    · exact hcF hinF
    · rcases hk with h | h <;> rw [hc] at h <;> exact ObjKind.noConfusion h
  have hget : btreeGet c lut = none := by
    cases hcg : btreeGet c lut with
    | none => rfl
    | some v => exact absurd (btreeGet_mem_keys hcg) hcnot
  have hkeys : ∀ a, a ∈ btreeKeys (btreeInsert c (Capsule.Normal []) lut) ↔
      a = c ∨ a ∈ btreeKeys lut := fun a => mem_keys_insert c a _ lut
  have hgetNe : ∀ a, a ≠ c →
      btreeGet a (btreeInsert c (Capsule.Normal []) lut) = btreeGet a lut :=
    fun a ha => btreeGet_insert_ne c a _ lut ha
  have hKmono : ∀ a ∈ btreeKeys lut, a ∈ btreeKeys (btreeInsert c (Capsule.Normal []) lut) :=
    fun a ha => (hkeys a).mpr (Or.inr ha)
  have hFmono : ∀ a ∈ F, a ∈ c :: F := fun a ha => List.mem_cons_of_mem c ha
  refine ⟨?_, ?_, ?_, ?_⟩
  · intro x hx
    rcases (hkeys x).mp hx with hxx | hx'
    · subst hxx
      exact Or.inl ⟨hc, List.mem_cons_self _ F⟩
    · rcases inv.keysSound x hx' with ⟨hk, hinF⟩ | ⟨hk, c', hc', hr⟩
      · exact Or.inl ⟨hk, hFmono x hinF⟩
      · exact Or.inr ⟨hk, c', hFmono c' hc', hr⟩
  · intro a ha
    rcases List.mem_cons.mp ha with haa | ha'
    · subst haa
      exact ⟨hc, btreeGet_insert_self _ _ _⟩
    · obtain ⟨hk, hg⟩ := inv.commitsF a ha'
      have hane : a ≠ c := fun heq => hcF (heq ▸ ha')
      exact ⟨hk, by rw [hgetNe a hane]; exact hg⟩
  · intro x hx hxk
    have hxne : x ≠ c := by
      intro heq
      subst heq
      rcases hxk with h | h <;> rw [hc] at h <;> exact ObjKind.noConfusion h
    obtain ⟨ps, hps, hne, hall⟩ := inv.capsules x (by
      rcases (hkeys x).mp hx with h | h
      · exact absurd h hxne
      · exact h) hxk
    refine ⟨ps, by rw [hgetNe x hxne]; exact hps, hne, ?_⟩
    intro p hp
    exact fwdEdge_mono hFmono hKmono (hall p hp)
  · intro p x hpx
    rcases hpx with ⟨hp, hr⟩ | ⟨hp, hs⟩
    · rcases List.mem_cons.mp hp with hpc | hpF
      · subst hpc
        exact Or.inl (Or.inr ⟨rfl, hr.symm⟩)
      · rcases inv.edgeDone p x (Or.inl ⟨hpF, hr⟩) with hm | ⟨ps, hps, hmem⟩
        · exact Or.inl (Or.inl hm)
        · have hxne : x ≠ c := by
            intro heq
            subst heq
            rw [hget] at hps
            exact Option.noConfusion hps
          exact Or.inr ⟨ps, by rw [hgetNe x hxne]; exact hps, hmem⟩
    · rcases (hkeys p).mp hp with hpc | hpold
      · subst hpc
        obtain ⟨hk, _, _⟩ := hs
        rw [hc] at hk
        exact absurd hk (by intro h; exact ObjKind.noConfusion h)
      · rcases inv.edgeDone p x (Or.inr ⟨hpold, hs⟩) with hm | ⟨ps, hps, hmem⟩
        · exact Or.inl (Or.inl hm)
        · have hxne : x ≠ c := by
            intro heq
            subst heq
            rw [hget] at hps
            exact Option.noConfusion hps
          exact Or.inr ⟨ps, by rw [hgetNe x hxne]; exact hps, hmem⟩

/-- The pending relation of the invariant only matters on actual forward
edges, so it can be exchanged along any edge-respecting implication. -/
theorem BuildInv.adjustM {S : ObjectSource} {F : List Oid} {M1 M2 : Oid → Oid → Prop}
    {lut : Lut} (inv : BuildInv S F M1 lut)
    (h : ∀ p x, FwdEdge S F lut p x → M1 p x → M2 p x) :
    BuildInv S F M2 lut :=
  ⟨inv.keysSound, inv.commitsF, inv.capsules, fun p x hpx =>
    (inv.edgeDone p x hpx).imp (h p x hpx) (fun hx => hx)⟩

theorem keys_mono_insert {β : Type} {k : Oid} {v : β} {m : List (Oid × β)} {a : Oid}
    (ha : a ∈ btreeKeys m) : a ∈ btreeKeys (btreeInsert k v m) :=
  (mem_keys_insert k a v m).mpr (Or.inr ha)

/-- The invariant is carried through the entry loop of `recurse_tree`:
processing the remaining entries of an already-inserted tree `t`
discharges exactly the pending edges from `t` to those entries. -/
theorem recurseTreeItems_inv (S : ObjectSource) (hgt : Oid → Nat) (F : List Oid)
    (wf : SourceWf S hgt) (fc : Nat)
    (IH : ∀ t lut M,
      BuildInv S F (fun p x => (p = t ∧ x ∈ S.entries t) ∨ M p x) lut →
      t ∈ btreeKeys lut → S.kindOf t = ObjKind.tree → hgt t < fc →
      ∃ lut2 n, recurseTree S fc t lut = some (lut2, n) ∧
        BuildInv S F M lut2 ∧ ∀ a ∈ btreeKeys lut, a ∈ btreeKeys lut2) :
    ∀ rest t lut M,
      BuildInv S F (fun p x => (p = t ∧ x ∈ rest) ∨ M p x) lut →
      t ∈ btreeKeys lut → S.kindOf t = ObjKind.tree →
      (∀ x ∈ rest, x ∈ S.entries t) →
      hgt t ≤ fc →
      ∃ lut2 n, recurseTreeItems S (recurseTree S fc) t rest lut = some (lut2, n) ∧
        BuildInv S F M lut2 ∧ ∀ a ∈ btreeKeys lut, a ∈ btreeKeys lut2 := by
  intro rest
  induction rest with
  | nil =>
    intro t lut M inv ht hk _ _
    refine ⟨lut, 0, by simp [recurseTreeItems], ?_, fun a ha => ha⟩
    refine inv.adjustM (fun p x _ hm => ?_)
    rcases hm with ⟨_, hx⟩ | hm
    · simp at hx
    · exact hm
  | cons item rest ihr =>
    intro t lut M inv ht hk hsub hf
    have htreach : ∃ c ∈ F, Reaches S (S.rootTree c) t := by
      rcases inv.keysSound t ht with ⟨hkc, _⟩ | ⟨_, c, hc, hr⟩
      · rw [hk] at hkc
        exact ObjKind.noConfusion hkc
      · exact ⟨c, hc, hr⟩
    have hMd : ∀ p x, ((p = t ∧ x ∈ item :: rest) ∨ M p x) →
        ((p = t ∧ x ∈ rest) ∨ M p x) ∨ (p = t ∧ x = item) := by
      rintro p x (⟨hp, hx⟩ | hm)
      · rcases List.mem_cons.mp hx with hxi | hx'
        · exact Or.inr ⟨hp, hxi⟩
        · exact Or.inl (Or.inl ⟨hp, hx'⟩)
      · exact Or.inl (Or.inr hm)
    cases hkind : S.kindOf item with
    | tree =>
      have hstep : FwdStep S t item := ⟨hk, hsub item (by simp), Or.inl hkind⟩
      have hfitem : hgt item < fc := lt_of_lt_of_le (wf.heightDec t item hstep) hf
      cases hget : btreeGet item lut with
      | none =>
        have hins : insert_parent_and_has_not_seen_child t item lut =
            (true, btreeInsert item (Capsule.Normal [t]) lut) := by
          simp [insert_parent_and_has_not_seen_child, hget]
        have hreach : ∃ c ∈ F, Reaches S (S.rootTree c) item := by
          obtain ⟨c, hc, hr⟩ := htreach
          exact ⟨c, hc, hr.tail hstep⟩
        have inv1 : BuildInv S F
            (fun p x => (p = item ∧ x ∈ S.entries item) ∨
              ((p = t ∧ x ∈ rest) ∨ M p x))
            (btreeInsert item (Capsule.Normal [t]) lut) := by
          refine inv.insertNew hget (Or.inl hkind) hreach (Or.inr ⟨ht, hstep⟩) ?_ ?_
          · intro p x hm
            rcases hMd p x hm with h | h
            · exact Or.inl (Or.inr h)
            · exact Or.inr h
          · intro y hy
            exact Or.inl ⟨rfl, hy.2.1⟩
        obtain ⟨lut2, r1, hrec, inv2, hmono2⟩ :=
          IH item (btreeInsert item (Capsule.Normal [t]) lut)
            (fun p x => (p = t ∧ x ∈ rest) ∨ M p x) inv1
            ((mem_keys_insert item item _ lut).mpr (Or.inl rfl)) hkind hfitem
        obtain ⟨lut3, r2, hrest, inv3, hmono3⟩ :=
          ihr t lut2 M inv2 (hmono2 t (keys_mono_insert ht)) hk
            (fun x hx => hsub x (by simp [hx])) hf
        refine ⟨lut3, r1 + r2, ?_, inv3, ?_⟩
        · simp [recurseTreeItems, hkind, hins, hrec, hrest]
        · exact fun a ha => hmono3 a (hmono2 a (keys_mono_insert ha))
      | some cap =>
        cases cap with
        | Normal ps =>
          have hins : insert_parent_and_has_not_seen_child t item lut =
              (false, btreeInsert item (Capsule.Normal (ps ++ [t])) lut) := by
            simp [insert_parent_and_has_not_seen_child, hget]
          have inv1 : BuildInv S F (fun p x => (p = t ∧ x ∈ rest) ∨ M p x)
              (btreeInsert item (Capsule.Normal (ps ++ [t])) lut) :=
            inv.push hget (Or.inl hkind) (Or.inr ⟨ht, hstep⟩) hMd
          obtain ⟨lut2, r, hrest, inv2, hmono2⟩ :=
            ihr t (btreeInsert item (Capsule.Normal (ps ++ [t])) lut) M inv1
              (keys_mono_insert ht) hk (fun x hx => hsub x (by simp [hx])) hf
          refine ⟨lut2, r, ?_, inv2, ?_⟩
          · simp [recurseTreeItems, hkind, hins, hrest]
          · exact fun a ha => hmono2 a (keys_mono_insert ha)
        | Compact ps =>
          exfalso
          obtain ⟨ps', hps', _, _⟩ :=
            inv.capsules item (btreeGet_mem_keys hget) (Or.inl hkind)
          rw [hget] at hps'
          simp at hps'
    | blob =>
      have hstep : FwdStep S t item := ⟨hk, hsub item (by simp), Or.inr hkind⟩
      cases hget : btreeGet item lut with
      | none =>
        have hins : blobEntryPush t item lut =
            btreeInsert item (Capsule.Normal [t]) lut := by
          simp [blobEntryPush, hget]
        have hreach : ∃ c ∈ F, Reaches S (S.rootTree c) item := by
          obtain ⟨c, hc, hr⟩ := htreach
          exact ⟨c, hc, hr.tail hstep⟩
        have inv1 : BuildInv S F (fun p x => (p = t ∧ x ∈ rest) ∨ M p x)
            (btreeInsert item (Capsule.Normal [t]) lut) := by
          refine inv.insertNew hget (Or.inr hkind) hreach (Or.inr ⟨ht, hstep⟩) hMd ?_
          intro y hy
          exfalso
          obtain ⟨h1, -, -⟩ := hy
          rw [hkind] at h1
          exact ObjKind.noConfusion h1
        obtain ⟨lut2, r, hrest, inv2, hmono2⟩ :=
          ihr t (btreeInsert item (Capsule.Normal [t]) lut) M inv1
            (keys_mono_insert ht) hk (fun x hx => hsub x (by simp [hx])) hf
        refine ⟨lut2, 1 + r, ?_, inv2, ?_⟩
        · simp [recurseTreeItems, hkind, hins, hrest]
        · exact fun a ha => hmono2 a (keys_mono_insert ha)
      | some cap =>
        cases cap with
        | Normal ps =>
          have hins : blobEntryPush t item lut =
              btreeInsert item (Capsule.Normal (ps ++ [t])) lut := by
            simp [blobEntryPush, hget]
          have inv1 : BuildInv S F (fun p x => (p = t ∧ x ∈ rest) ∨ M p x)
              (btreeInsert item (Capsule.Normal (ps ++ [t])) lut) :=
            inv.push hget (Or.inr hkind) (Or.inr ⟨ht, hstep⟩) hMd
          obtain ⟨lut2, r, hrest, inv2, hmono2⟩ :=
            ihr t (btreeInsert item (Capsule.Normal (ps ++ [t])) lut) M inv1
              (keys_mono_insert ht) hk (fun x hx => hsub x (by simp [hx])) hf
          refine ⟨lut2, 1 + r, ?_, inv2, ?_⟩
          · simp [recurseTreeItems, hkind, hins, hrest]
          · exact fun a ha => hmono2 a (keys_mono_insert ha)
        | Compact ps =>
          exfalso
          obtain ⟨ps', hps', _, _⟩ :=
            inv.capsules item (btreeGet_mem_keys hget) (Or.inr hkind)
          rw [hget] at hps'
          simp at hps'
    | commit =>
      have inv' : BuildInv S F (fun p x => (p = t ∧ x ∈ rest) ∨ M p x) lut := by
        refine inv.adjustM (fun p x hpx hm => ?_)
        rcases hm with ⟨hp, hx⟩ | hm
        · subst hp
          rcases List.mem_cons.mp hx with hxi | hx'
          · subst hxi
            exfalso
            rcases hpx with ⟨htF, _⟩ | ⟨_, _, _, hki⟩
            · have := (inv.commitsF p htF).1
              rw [hk] at this
              exact ObjKind.noConfusion this
            · rcases hki with h | h <;> rw [hkind] at h <;> exact ObjKind.noConfusion h
          · exact Or.inl ⟨rfl, hx'⟩
        · exact Or.inr hm
      obtain ⟨lut2, r, hrest, inv2, hmono2⟩ :=
        ihr t lut M inv' ht hk (fun x hx => hsub x (by simp [hx])) hf
      refine ⟨lut2, r, ?_, inv2, hmono2⟩
      simp [recurseTreeItems, hkind, hrest]
    | other =>
      have inv' : BuildInv S F (fun p x => (p = t ∧ x ∈ rest) ∨ M p x) lut := by
        refine inv.adjustM (fun p x hpx hm => ?_)
        rcases hm with ⟨hp, hx⟩ | hm
        · subst hp
          rcases List.mem_cons.mp hx with hxi | hx'
          · subst hxi
            exfalso
            rcases hpx with ⟨htF, _⟩ | ⟨_, _, _, hki⟩
            · have := (inv.commitsF p htF).1
              rw [hk] at this
              exact ObjKind.noConfusion this
            · rcases hki with h | h <;> rw [hkind] at h <;> exact ObjKind.noConfusion h
          · exact Or.inl ⟨rfl, hx'⟩
        · exact Or.inr hm
      obtain ⟨lut2, r, hrest, inv2, hmono2⟩ :=
        ihr t lut M inv' ht hk (fun x hx => hsub x (by simp [hx])) hf
      refine ⟨lut2, r, ?_, inv2, hmono2⟩
      simp [recurseTreeItems, hkind, hrest]

/-- `recurse_tree` on a newly inserted tree completes (given fuel above
the tree's height) and discharges all the tree's pending entry edges. -/
theorem recurseTree_inv (S : ObjectSource) (hgt : Oid → Nat) (F : List Oid)
    (wf : SourceWf S hgt) :
    ∀ fuel t lut M,
      BuildInv S F (fun p x => (p = t ∧ x ∈ S.entries t) ∨ M p x) lut →
      t ∈ btreeKeys lut → S.kindOf t = ObjKind.tree → hgt t < fuel →
      ∃ lut2 n, recurseTree S fuel t lut = some (lut2, n) ∧
        BuildInv S F M lut2 ∧ ∀ a ∈ btreeKeys lut, a ∈ btreeKeys lut2 := by
  intro fuel
  induction fuel with
  | zero =>
    intro t lut M _ _ _ hf
    omega
  | succ fc ihf =>
    intro t lut M inv ht hk hf
    obtain ⟨lut2, n, hrun, inv2, hmono⟩ :=
      recurseTreeItems_inv S hgt F wf fc ihf (S.entries t) t lut M inv ht hk
        (fun x hx => hx) (by omega)
    exact ⟨lut2, n, by simpa [recurseTree] using hrun, inv2, hmono⟩

/-- The commit loop of `build` establishes the invariant with no pending
edges; `F2` collects exactly the found commits of the chunk on top of the
previously inserted ones. -/
theorem buildChunk_inv (S : ObjectSource) (hgt : Oid → Nat) (wf : SourceWf S hgt)
    (fuel : Nat) :
    ∀ (cs F : List Oid) (lut : Lut),
      BuildInv S F (fun _ _ => False) lut →
      cs.Nodup → (∀ c ∈ cs, c ∉ F) →
      (∀ c ∈ cs, S.present c = true → hgt (S.rootTree c) < fuel) →
      ∃ lut2 n F2, buildChunk S fuel cs lut = some (lut2, n) ∧
        BuildInv S F2 (fun _ _ => False) lut2 ∧
        (∀ a, a ∈ F2 ↔ (a ∈ cs ∧ S.present a = true) ∨ a ∈ F) ∧
        (∀ a ∈ btreeKeys lut, a ∈ btreeKeys lut2) := by
  intro cs
  induction cs with
  | nil =>
    intro F lut inv _ _ _
    exact ⟨lut, 0, F, by simp [buildChunk], inv, by simp, fun a ha => ha⟩
  | cons c cs ihc =>
    intro F lut inv hnd hnotF hfuel
    have hndtail : cs.Nodup := (List.nodup_cons.mp hnd).2
    have hcnotcs : c ∉ cs := (List.nodup_cons.mp hnd).1
    by_cases hp : S.present c = true
    · have hkc : S.kindOf c = ObjKind.commit := wf.presentCommit c hp
      have hcF : c ∉ F := hnotF c (by simp)
      have inv1 := inv.insertCommit hkc hcF
      have hkr : S.kindOf (S.rootTree c) = ObjKind.tree := wf.rootIsTree c hp
      have hnotF2 : ∀ a ∈ cs, a ∉ c :: F := by
        intro a ha hmem
        rcases List.mem_cons.mp hmem with hac | haF
        · exact hcnotcs (hac ▸ ha)
        · exact hnotF a (by simp [ha]) haF
      have hfuel2 : ∀ a ∈ cs, S.present a = true → hgt (S.rootTree a) < fuel :=
        fun a ha hpa => hfuel a (by simp [ha]) hpa
      cases hget : btreeGet (S.rootTree c) (btreeInsert c (Capsule.Normal []) lut) with
      | none =>
        have hins : insert_parent_and_has_not_seen_child c (S.rootTree c)
            (btreeInsert c (Capsule.Normal []) lut) =
            (true, btreeInsert (S.rootTree c) (Capsule.Normal [c])
              (btreeInsert c (Capsule.Normal []) lut)) := by
          simp [insert_parent_and_has_not_seen_child, hget]
        have inv2 : BuildInv S (c :: F)
            (fun p x => (p = S.rootTree c ∧ x ∈ S.entries (S.rootTree c)) ∨ False)
            (btreeInsert (S.rootTree c) (Capsule.Normal [c])
              (btreeInsert c (Capsule.Normal []) lut)) := by
          refine inv1.insertNew hget (Or.inl hkr)
            ⟨c, List.mem_cons_self _ _, Relation.ReflTransGen.refl⟩
            (Or.inl ⟨List.mem_cons_self _ _, rfl⟩) ?_ ?_
          · intro p x hm
            rcases hm with hf | ⟨hpc, hxr⟩
            · exact absurd hf (fun h => h)
            · exact Or.inr ⟨hpc, hxr⟩
          · intro y hy
            exact Or.inl ⟨rfl, hy.2.1⟩
        obtain ⟨lut3, r1, hrec, inv3, hmono3⟩ :=
          recurseTree_inv S hgt (c :: F) wf fuel (S.rootTree c) _ (fun _ _ => False)
            inv2 ((mem_keys_insert _ _ _ _).mpr (Or.inl rfl)) hkr
            (hfuel c (by simp) hp)
        obtain ⟨lut4, r2, F2, hrun, inv4, hiff, hmono4⟩ :=
          ihc (c :: F) lut3 inv3 hndtail hnotF2 hfuel2
        refine ⟨lut4, r1 + r2, F2, ?_, inv4, ?_, ?_⟩
        · simp [buildChunk, hp, hins, hrec, hrun]
        · intro a
          rw [hiff a]
          simp only [List.mem_cons]
          constructor
          · rintro (⟨ha, hpa⟩ | (hac | haF))
            · exact Or.inl ⟨Or.inr ha, hpa⟩
            · exact Or.inl ⟨Or.inl hac, hac ▸ hp⟩
            · exact Or.inr haF
          · rintro (⟨hac | ha, hpa⟩ | haF)
            · exact Or.inr (Or.inl hac)
            · exact Or.inl ⟨ha, hpa⟩
            · exact Or.inr (Or.inr haF)
        · intro a ha
          exact hmono4 a (hmono3 a (keys_mono_insert (keys_mono_insert ha)))
      | some cap =>
        cases cap with
        | Normal ps =>
          have hins : insert_parent_and_has_not_seen_child c (S.rootTree c)
              (btreeInsert c (Capsule.Normal []) lut) =
              (false, btreeInsert (S.rootTree c) (Capsule.Normal (ps ++ [c]))
                (btreeInsert c (Capsule.Normal []) lut)) := by
            simp [insert_parent_and_has_not_seen_child, hget]
          have inv2 : BuildInv S (c :: F) (fun _ _ => False)
              (btreeInsert (S.rootTree c) (Capsule.Normal (ps ++ [c]))
                (btreeInsert c (Capsule.Normal []) lut)) := by
            refine inv1.push hget (Or.inl hkr)
              (Or.inl ⟨List.mem_cons_self _ _, rfl⟩) ?_
            intro p x hm
            rcases hm with hf | ⟨hpc, hxr⟩
            · exact absurd hf (fun h => h)
            · exact Or.inr ⟨hpc, hxr⟩
          obtain ⟨lut4, r2, F2, hrun, inv4, hiff, hmono4⟩ :=
            ihc (c :: F) _ inv2 hndtail hnotF2 hfuel2
          refine ⟨lut4, r2, F2, ?_, inv4, ?_, ?_⟩
          · simp [buildChunk, hp, hins, hrun]
          · intro a
            rw [hiff a]
            simp only [List.mem_cons]
            constructor
            · rintro (⟨ha, hpa⟩ | (hac | haF))
              · exact Or.inl ⟨Or.inr ha, hpa⟩
              · exact Or.inl ⟨Or.inl hac, hac ▸ hp⟩
              · exact Or.inr haF
            · rintro (⟨hac | ha, hpa⟩ | haF)
              · exact Or.inr (Or.inl hac)
              · exact Or.inl ⟨ha, hpa⟩
              · exact Or.inr (Or.inr haF)
          · intro a ha
            exact hmono4 a (keys_mono_insert (keys_mono_insert ha))
        | Compact ps =>
          exfalso
          obtain ⟨ps', hps', _, _⟩ :=
            inv1.capsules (S.rootTree c) (btreeGet_mem_keys hget) (Or.inl hkr)
          rw [hget] at hps'
          simp at hps'
    · obtain ⟨lut2, n, F2, hrun, inv2, hiff, hmono⟩ :=
        ihc F lut inv hndtail (fun a ha => hnotF a (by simp [ha])) 
          (fun a ha hpa => hfuel a (by simp [ha]) hpa)
      refine ⟨lut2, n, F2, ?_, inv2, ?_, hmono⟩
      · simp [buildChunk, hp, hrun]
      · intro a
        rw [hiff a]
        simp only [List.mem_cons]
        constructor
        · rintro (⟨ha, hpa⟩ | haF)
          · exact Or.inl ⟨Or.inr ha, hpa⟩
          · exact Or.inr haF
        · rintro (⟨hac | ha, hpa⟩ | haF)
          · exact absurd (hac ▸ hpa) hp
          · exact Or.inl ⟨ha, hpa⟩
          · exact Or.inr haF

/-- One reverse edge recorded in the table: from a digest to one of the
parents stored in its `Normal` capsule. -/
def RevStep (lut : Lut) (x p : Oid) : Prop :=
  ∃ ps, btreeGet x lut = some (Capsule.Normal ps) ∧ p ∈ ps

/-- Reverse reachability along recorded parent edges. -/
def RevReach (lut : Lut) : Oid → Oid → Prop := Relation.ReflTransGen (RevStep lut)

theorem traverseNormal_mono (lut : Lut) :
    ∀ fuel stack out res, traverseNormal lut fuel stack out = some res →
      ∃ added, res = out ++ added := by
  intro fuel
  induction fuel with
  | zero =>
    intro stack out res h
    cases stack with
    | nil =>
      simp [traverseNormal] at h
      exact ⟨[], by rw [← h]; simp⟩
    | cons x s => simp [traverseNormal] at h
  | succ fc ih =>
    intro stack out res h
    cases stack with
    | nil =>
      simp [traverseNormal] at h
      exact ⟨[], by rw [← h]; simp⟩
    | cons x s =>
      cases hg : btreeGet x lut with
      | none => simp [traverseNormal, hg] at h
      | some cap =>
        cases cap with
        | Compact ps => simp [traverseNormal, hg] at h
        | Normal ps =>
          by_cases hps : ps = []
          · simp only [traverseNormal, hg, hps, if_pos] at h
            obtain ⟨added, ha⟩ := ih s (out ++ [x]) res h
            exact ⟨[x] ++ added, by rw [ha]; simp⟩
          · simp only [traverseNormal, hg, if_neg hps] at h
            exact ih _ out res h

theorem traverseNormal_sound (lut : Lut) :
    ∀ fuel stack out res, traverseNormal lut fuel stack out = some res →
      ∀ y ∈ res, y ∈ out ∨ btreeGet y lut = some (Capsule.Normal []) := by
  intro fuel
  induction fuel with
  | zero =>
    intro stack out res h y hy
    cases stack with
    | nil =>
      simp [traverseNormal] at h
      exact Or.inl (h ▸ hy)
    | cons x s => simp [traverseNormal] at h
  | succ fc ih =>
    intro stack out res h y hy
    cases stack with
    | nil =>
      simp [traverseNormal] at h
      exact Or.inl (h ▸ hy)
    | cons x s =>
      cases hg : btreeGet x lut with
      | none => simp [traverseNormal, hg] at h
      | some cap =>
        cases cap with
        | Compact ps => simp [traverseNormal, hg] at h
        | Normal ps =>
          by_cases hps : ps = []
          · simp only [traverseNormal, hg, hps, if_pos] at h
            rcases ih s (out ++ [x]) res h y hy with hyo | hyn
            · rcases List.mem_append.mp hyo with hyo | hyx
              · exact Or.inl hyo
              · obtain rfl : y = x := by simpa using hyx
                subst hps
                exact Or.inr hg
            · exact Or.inr hyn
          · simp only [traverseNormal, hg, if_neg hps] at h
            exact ih _ out res h y hy

theorem traverseNormal_complete (lut : Lut) :
    ∀ fuel stack out res, traverseNormal lut fuel stack out = some res →
      ∀ x ∈ stack, ∀ y, RevReach lut x y →
        btreeGet y lut = some (Capsule.Normal []) → y ∈ res := by
  intro fuel
  induction fuel with
  | zero =>
    intro stack out res h x hx
    cases stack with
    | nil => simp at hx
    | cons a s => simp [traverseNormal] at h
  | succ fc ih =>
    intro stack out res h x hx y hr hy
    cases stack with
    | nil => simp at hx
    | cons a s =>
      cases hg : btreeGet a lut with
      | none => simp [traverseNormal, hg] at h
      | some cap =>
        cases cap with
        | Compact ps => simp [traverseNormal, hg] at h
        | Normal ps =>
          by_cases hps : ps = []
          · simp only [traverseNormal, hg, hps, if_pos] at h
            rcases List.mem_cons.mp hx with hxa | hxs
            · subst hxa
              rcases Relation.ReflTransGen.cases_head hr with hxy | ⟨b, hstep, _⟩
              · subst hxy
                obtain ⟨added, hadd⟩ := traverseNormal_mono lut fc s (out ++ [x]) res h
                rw [hadd]
                simp
              · obtain ⟨ps', hps', hb⟩ := hstep
                rw [hg] at hps'
                obtain rfl : ps = ps' := by simpa using hps'
                subst hps
                simp at hb
            · exact ih s (out ++ [a]) res h x hxs y hr hy
          · simp only [traverseNormal, hg, if_neg hps] at h
            rcases List.mem_cons.mp hx with hxa | hxs
            · subst hxa
              rcases Relation.ReflTransGen.cases_head hr with hxy | ⟨b, hstep, hr'⟩
              · subst hxy
                rw [hg] at hy
                obtain rfl : ps = [] := by simpa using hy.symm
                exact absurd rfl hps
              · obtain ⟨ps', hps', hb⟩ := hstep
                rw [hg] at hps'
                obtain rfl : ps = ps' := by simpa using hps'
                refine ih _ out res h b ?_ y hr' hy
                simp [hb]
            · refine ih _ out res h x ?_ y hr hy
              simp [hxs]

/-- Exact number of worklist pops a traversal starting at one digest
performs, computed with fuel; at sufficient fuel it satisfies the
recurrence count x = 1 + sum of the counts of x's parents. -/
def countF (lut : Lut) : Nat → Oid → Nat
  | 0, _ => 1
  | Nat.succ f, x =>
    match btreeGet x lut with
    | some (Capsule.Normal ps) => 1 + (ps.map (countF lut f)).sum
    | _ => 1

/-- A closed, all-Normal table whose parent edges strictly decrease a
rank: exactly what the builder's invariant provides for the reverse
graph (commits have rank 0 and no parents; trees and blobs rank above
their recorded parents). -/
def RankedLut (lut : Lut) (rank : Oid → Nat) : Prop :=
  ∀ x ∈ btreeKeys lut, ∃ ps, btreeGet x lut = some (Capsule.Normal ps) ∧
    ∀ p ∈ ps, p ∈ btreeKeys lut ∧ rank p < rank x

theorem countF_pos (lut : Lut) (f : Nat) (x : Oid) : 1 ≤ countF lut f x := by
  cases f with
  | zero => simp [countF]
  | succ fc =>
    cases hg : btreeGet x lut with
    | none => simp [countF, hg]
    | some cap =>
      cases cap with
      | Normal ps => simp [countF, hg]
      | Compact ps => simp [countF, hg]

theorem map_sum_congr {α : Type} (l : List α) (f g : α → Nat)
    (h : ∀ a ∈ l, f a = g a) : (l.map f).sum = (l.map g).sum := by
  induction l with
  | nil => rfl
  | cons a t ih =>
    simp only [List.map_cons, List.sum_cons]
    rw [h a (by simp), ih (fun b hb => h b (by simp [hb]))]

theorem countF_stable (lut : Lut) (rank : Oid → Nat) (hR : RankedLut lut rank) :
    ∀ f x, x ∈ btreeKeys lut → rank x ≤ f → countF lut f x = countF lut (f + 1) x := by
  intro f
  induction f with
  | zero =>
    intro x hx hr
    obtain ⟨ps, hps, hall⟩ := hR x hx
    have hempty : ps = [] := by
      cases ps with
      | nil => rfl
      | cons p t =>
        have := (hall p (by simp)).2
        omega
    subst hempty
    simp [countF, hps]
  | succ fc ih =>
    intro x hx hr
    obtain ⟨ps, hps, hall⟩ := hR x hx
    show countF lut (fc + 1) x = countF lut (fc + 1 + 1) x
    simp only [countF, hps]
    congr 1
    refine map_sum_congr ps _ _ (fun p hp => ?_)
    have hpk := (hall p hp).1
    have hpr := (hall p hp).2
    exact ih p hpk (by omega)

theorem countF_stable_ge (lut : Lut) (rank : Oid → Nat) (hR : RankedLut lut rank)
    {x : Oid} (hx : x ∈ btreeKeys lut) :
    ∀ f g, rank x ≤ f → f ≤ g → countF lut f x = countF lut g x := by
  intro f g
  induction g with
  | zero =>
    intro h1 h2
    obtain rfl : f = 0 := by omega
    rfl
  | succ gc ih =>
    intro h1 h2
    by_cases hfg : f = gc + 1
    · subst hfg
      rfl
    · have hfgc : f ≤ gc := by omega
      rw [ih h1 hfgc]
      exact countF_stable lut rank hR gc x hx (by omega)

theorem countF_unfold (lut : Lut) (rank : Oid → Nat) (RB : Nat)
    (hR : RankedLut lut rank) (hRB : ∀ x ∈ btreeKeys lut, rank x + 1 ≤ RB)
    {x : Oid} {ps : List Oid} (hxk : x ∈ btreeKeys lut)
    (hx : btreeGet x lut = some (Capsule.Normal ps)) :
    countF lut RB x = 1 + (ps.map (countF lut RB)).sum := by
  obtain ⟨m, rfl⟩ : ∃ m, RB = m + 1 := by
    have := hRB x hxk
    exact ⟨RB - 1, by omega⟩
  simp only [countF, hx]
  congr 1
  refine map_sum_congr ps _ _ (fun p hp => ?_)
  obtain ⟨ps', hps', hall⟩ := hR x hxk
  rw [hx] at hps'
  obtain rfl : ps = ps' := by simpa using hps'
  have hpk := (hall p hp).1
  have hpr := (hall p hp).2
  have hrx : rank x + 1 ≤ m + 1 := hRB x hxk
  exact countF_stable_ge lut rank hR hpk m (m + 1) (by omega) (by omega)

theorem traverseNormal_succeeds (lut : Lut) (rank : Oid → Nat) (RB : Nat)
    (hR : RankedLut lut rank) (hRB : ∀ x ∈ btreeKeys lut, rank x + 1 ≤ RB) :
    ∀ n stack out, (stack.map (countF lut RB)).sum = n →
      (∀ x ∈ stack, x ∈ btreeKeys lut) →
      ∃ res, traverseNormal lut n stack out = some res := by
  intro n
  induction n using Nat.strong_induction_on with
  | _ n IH =>
    intro stack out hsum hkeys
    cases stack with
    | nil =>
      refine ⟨out, ?_⟩
      cases n <;> simp [traverseNormal]
    | cons x s =>
      have hxk : x ∈ btreeKeys lut := hkeys x (by simp)
      obtain ⟨ps, hps, hall⟩ := hR x hxk
      have hcount : countF lut RB x = 1 + (ps.map (countF lut RB)).sum :=
        countF_unfold lut rank RB hR hRB hxk hps
      by_cases hempty : ps = []
      · subst hempty
        have hn : n = (s.map (countF lut RB)).sum + 1 := by
          simp only [List.map_cons, List.sum_cons] at hsum
          simp at hcount
          omega
        subst hn
        obtain ⟨res, hres⟩ := IH ((s.map (countF lut RB)).sum) (by omega) s (out ++ [x])
          rfl (fun a ha => hkeys a (by simp [ha]))
        refine ⟨res, ?_⟩
        simp [traverseNormal, hps, hres]
      · have hn : n = ((ps.map (countF lut RB)).sum + (s.map (countF lut RB)).sum) + 1 := by
          simp only [List.map_cons, List.sum_cons] at hsum
          omega
        subst hn
        obtain ⟨res, hres⟩ := IH ((ps.map (countF lut RB)).sum + (s.map (countF lut RB)).sum)
          (by omega) (ps.reverse ++ s) out
          (by simp [List.map_append, List.sum_append, List.map_reverse, List.sum_reverse])
          (fun a ha => by
            rcases List.mem_append.mp ha with hap | has
            · exact (hall a (List.mem_reverse.mp hap)).1
            · exact hkeys a (by simp [has]))
        refine ⟨res, ?_⟩
        simp only [traverseNormal, hps, if_neg hempty]
        exact hres

/-- An upper bound for the forward height over a key list. -/
def heightBound (hgt : Oid → Nat) (xs : List Oid) : Nat :=
  (xs.map hgt).foldr max 0

theorem le_heightBound (hgt : Oid → Nat) (xs : List Oid) :
    ∀ x ∈ xs, hgt x ≤ heightBound hgt xs := by
  induction xs with
  | nil => simp
  | cons a t ih =>
    intro x hx
    have hstep : heightBound hgt (a :: t) = max (hgt a) (heightBound hgt t) := rfl
    rcases List.mem_cons.mp hx with hxa | hxt
    · rw [hxa, hstep]
      exact le_max_left _ _
    · rw [hstep]
      exact le_trans (ih x hxt) (le_max_right _ _)

/-- Rank of a digest in the reverse graph: commits are minimal, trees and
blobs rank inversely to their forward height, so every recorded parent
edge strictly decreases the rank. -/
def RevRank (S : ObjectSource) (hgt : Oid → Nat) (B : Nat) (x : Oid) : Nat :=
  if S.kindOf x = ObjKind.commit then 0 else B + 1 - hgt x

/-- The builder's invariant makes the finished table ranked: every parent
recorded for a tree/blob is itself a key of strictly smaller rank, and
commits have no parents. -/
theorem buildInv_ranked (S : ObjectSource) (hgt : Oid → Nat) (wf : SourceWf S hgt)
    {F : List Oid} {lut : Lut} (inv : BuildInv S F (fun _ _ => False) lut) :
    RankedLut lut (RevRank S hgt (heightBound hgt (btreeKeys lut))) := by
  intro x hx
  rcases inv.keysSound x hx with ⟨hk, hxF⟩ | ⟨hk, -⟩
  · obtain ⟨-, hg⟩ := inv.commitsF x hxF
    exact ⟨[], hg, by simp⟩
  · obtain ⟨ps, hps, -, hall⟩ := inv.capsules x hx hk
    refine ⟨ps, hps, fun p hp => ?_⟩
    have hxB : hgt x ≤ heightBound hgt (btreeKeys lut) := le_heightBound hgt _ x hx
    have hxnc : ¬ S.kindOf x = ObjKind.commit := by
      rcases hk with h | h <;> rw [h] <;> exact fun hc => ObjKind.noConfusion hc
    have hxrank : RevRank S hgt (heightBound hgt (btreeKeys lut)) x =
        heightBound hgt (btreeKeys lut) + 1 - hgt x := by
      simp [RevRank, hxnc]
    rcases hall p hp with ⟨hpF, -⟩ | ⟨hpk, hstep⟩
    · have hkp := (inv.commitsF p hpF).1
      have hpkeys : p ∈ btreeKeys lut := btreeGet_mem_keys (inv.commitsF p hpF).2
      refine ⟨hpkeys, ?_⟩
      rw [hxrank]
      simp only [RevRank, hkp, if_pos]
      omega
    · have hdec := wf.heightDec p x hstep
      have hkp : S.kindOf p = ObjKind.tree := hstep.1
      have hpB : hgt p ≤ heightBound hgt (btreeKeys lut) := le_heightBound hgt _ p hpk
      refine ⟨hpk, ?_⟩
      rw [hxrank]
      simp only [RevRank, hkp]
      rw [if_neg (fun hc => ObjKind.noConfusion hc)]
      omega

/-- Forward reachability from the root tree of an inserted commit turns
into a reverse path back to that commit through the finished table. -/
theorem reaches_gives_revreach (S : ObjectSource) {F : List Oid} {lut : Lut}
    (inv : BuildInv S F (fun _ _ => False) lut) {c : Oid} (hc : c ∈ F) :
    ∀ x, Reaches S (S.rootTree c) x → x ∈ btreeKeys lut ∧ RevReach lut x c := by
  intro x hreach
  induction hreach with
  | refl =>
    have hedge : FwdEdge S F lut c (S.rootTree c) := Or.inl ⟨hc, rfl⟩
    rcases inv.edgeDone c _ hedge with hfalse | ⟨ps, hps, hmem⟩
    · exact absurd hfalse (fun h => h)
    · exact ⟨btreeGet_mem_keys hps, Relation.ReflTransGen.single ⟨ps, hps, hmem⟩⟩
  | tail hry hstep ih =>
    obtain ⟨hbk, hbrev⟩ := ih
    rcases inv.edgeDone _ _ (Or.inr ⟨hbk, hstep⟩) with hfalse | ⟨ps, hps, hmem⟩
    · exact absurd hfalse (fun h => h)
    · exact ⟨btreeGet_mem_keys hps, Relation.ReflTransGen.head ⟨ps, hps, hmem⟩ hbrev⟩

/-- C1: for every table the sequential Builder produces over a
well-formed object source, the query for any blob digest inserted during
the build returns normally with a non-empty output, every digest in the
output is a commit digest that was iterated (and found) during the build,
and every found commit from whose root tree the blob is reachable appears
in the output at least once. -/
theorem c1_build_lookup_correct (S : ObjectSource) (hgt : Oid → Nat)
    (wf : SourceWf S hgt) (commits : List Oid) (fuel : Nat)
    (hnd : commits.Nodup)
    (hfuel : ∀ c ∈ commits, S.present c = true → hgt (S.rootTree c) < fuel)
    (lut : Lut) (nrefs : Nat)
    (hbuild : buildChunk S fuel commits [] = some (lut, nrefs))
    (b : Oid) (hbk : b ∈ btreeKeys lut) (hkind : S.kindOf b = ObjKind.blob) :
    ∃ qfuel res,
      lookup_oid b lut (btreeKeys lut) qfuel (Stack.mk [] []) [] =
        some (Stack.mk [] [], res) ∧
      res ≠ [] ∧
      (∀ o ∈ res, o ∈ commits ∧ S.present o = true) ∧
      (∀ c ∈ commits, S.present c = true →
        Reaches S (S.rootTree c) b → c ∈ res) := by
  have inv0 : BuildInv S [] (fun _ _ => False) [] := by
    refine ⟨by simp [btreeKeys], by simp, by simp [btreeKeys], ?_⟩
    intro p x hpx
    rcases hpx with ⟨hp, -⟩ | ⟨hp, -⟩
    · simp at hp
    · simp [btreeKeys] at hp
  obtain ⟨lut2, n2, F2, hrun, inv2, hiff, -⟩ :=
    buildChunk_inv S hgt wf fuel commits [] [] inv0 hnd (by simp) hfuel
  rw [hbuild] at hrun
  have hpair : lut = lut2 ∧ nrefs = n2 := by
    have := hrun
    simp only [Option.some.injEq, Prod.mk.injEq] at this
    exact this
  obtain ⟨hl, -⟩ := hpair
  subst hl
  have hFmem : ∀ a, a ∈ F2 ↔ a ∈ commits ∧ S.present a = true := by
    intro a
    rw [hiff a]
    simp
  obtain ⟨ps, hps, hpsne, hpsall⟩ := inv2.capsules b hbk (Or.inr hkind)
  have hreachb : ∃ c ∈ F2, Reaches S (S.rootTree c) b := by
    rcases inv2.keysSound b hbk with ⟨hkc, -⟩ | ⟨-, c, hcF, hr⟩
    · rw [hkind] at hkc
      exact ObjKind.noConfusion hkc
    · exact ⟨c, hcF, hr⟩
  have hRanked : RankedLut lut (RevRank S hgt (heightBound hgt (btreeKeys lut))) :=
    buildInv_ranked S hgt wf inv2
  have hRB : ∀ x ∈ btreeKeys lut,
      RevRank S hgt (heightBound hgt (btreeKeys lut)) x + 1 ≤
        heightBound hgt (btreeKeys lut) + 2 := by
    intro x hx
    unfold RevRank
    split
    · omega
    · omega
  have hstackkeys : ∀ p ∈ ps.reverse, p ∈ btreeKeys lut := by
    intro p hp
    rcases hpsall p (List.mem_reverse.mp hp) with ⟨hpF, -⟩ | ⟨hpk, -⟩
    · exact btreeGet_mem_keys (inv2.commitsF p hpF).2
    · exact hpk
  obtain ⟨res, hres⟩ := traverseNormal_succeeds lut
    (RevRank S hgt (heightBound hgt (btreeKeys lut)))
    (heightBound hgt (btreeKeys lut) + 2) hRanked hRB
    ((ps.reverse.map (countF lut (heightBound hgt (btreeKeys lut) + 2))).sum)
    ps.reverse [] rfl hstackkeys
  have hmemres : ∀ c0, c0 ∈ F2 → Reaches S (S.rootTree c0) b → c0 ∈ res := by
    intro c0 hc0F hc0r
    have hc0kind := (inv2.commitsF c0 hc0F).1
    have hbnec0 : b ≠ c0 := by
      intro h
      rw [h, hc0kind] at hkind
      exact ObjKind.noConfusion hkind
    have hrev := reaches_gives_revreach S inv2 hc0F b hc0r
    rcases Relation.ReflTransGen.cases_head hrev.2 with heq | ⟨p, hstep, hrest⟩
    · exact absurd heq hbnec0
    · obtain ⟨ps', hps', hpmem⟩ := hstep
      rw [hps] at hps'
      have hpe : ps' = ps := by simpa using hps'.symm
      rw [hpe] at hpmem
      exact traverseNormal_complete lut _ ps.reverse [] res hres p
        (by simp [hpmem]) c0 hrest (inv2.commitsF c0 hc0F).2
  obtain ⟨c0, hc0F, hc0r⟩ := hreachb
  refine ⟨(ps.reverse.map (countF lut (heightBound hgt (btreeKeys lut) + 2))).sum,
    res, ?_, ?_, ?_, ?_⟩
  · rw [List.map_reverse] at hres
    simp [lookup_oid, hps, hres]
  · exact List.ne_nil_of_mem (hmemres c0 hc0F hc0r)
  · intro o ho
    rcases traverseNormal_sound lut _ ps.reverse [] res hres o ho with h0 | hg
    · simp at h0
    · have hok : o ∈ btreeKeys lut := btreeGet_mem_keys hg
      rcases inv2.keysSound o hok with ⟨-, hoF⟩ | ⟨hk, -⟩
      · exact (hFmem o).mp hoF
      · obtain ⟨ps', hps', hne', -⟩ := inv2.capsules o hok hk
        rw [hg] at hps'
        obtain rfl : ps' = [] := by simpa using hps'.symm
        exact absurd rfl hne'
  · intro c hcm hcp hcr
    exact hmemres c ((hFmem c).mpr ⟨hcm, hcp⟩) hcr

/-- A one-commit repository for concrete evaluation: commit 0 whose root
tree 1 holds blob 2; every other digest is absent. -/
def demoSource : ObjectSource where
  kindOf := fun o =>
    match o with
    | 0 => ObjKind.commit
    | 1 => ObjKind.tree
    | 2 => ObjKind.blob
    | _ => ObjKind.other
  rootTree := fun _ => 1
  entries := fun o =>
    match o with
    | 1 => [2]
    | _ => []
  present := fun o => o == 0

/-- Forward height witnessing acyclicity of `demoSource`. -/
def demoHeight : Oid → Nat := fun o =>
  match o with
  | 2 => 0
  | _ => 1

theorem demo_wf : SourceWf demoSource demoHeight := by
  refine ⟨?_, ?_, ?_⟩
  · intro c hc
    have hc0 : c = 0 := by simpa [demoSource] using hc
    subst hc0
    rfl
  · intro c _
    rfl
  · intro t x hstep
    obtain ⟨h1, h2, -⟩ := hstep
    rcases t with _ | _ | _ | t
    · exact absurd h1 (by simp [demoSource])
    · have hx : x = 2 := by simpa [demoSource] using h2
      subst hx
      decide
    · exact absurd h1 (by simp [demoSource])
    · exact absurd h1 (by simp [demoSource])

theorem c1_build_lookup_correct_witness :
    ∃ qfuel res,
      lookup_oid 2 [(0, Capsule.Normal []), (1, Capsule.Normal [0]), (2, Capsule.Normal [1])]
        (btreeKeys [(0, Capsule.Normal []), (1, Capsule.Normal [0]), (2, Capsule.Normal [1])])
        qfuel (Stack.mk [] []) [] =
        some (Stack.mk [] [], res) ∧
      res ≠ [] ∧
      (∀ o ∈ res, o ∈ [0] ∧ demoSource.present o = true) ∧
      (∀ c ∈ [0], demoSource.present c = true →
        Reaches demoSource (demoSource.rootTree c) 2 → c ∈ res) :=
  c1_build_lookup_correct demoSource demoHeight demo_wf [0] 3 (by decide)
    (by decide)
    [(0, Capsule.Normal []), (1, Capsule.Normal [0]), (2, Capsule.Normal [1])] 1
    (by decide) 2 (by decide) (by decide)

theorem btreeInsert_keysSorted {β : Type} (k : Oid) (v : β) :
    ∀ m : List (Oid × β), List.Pairwise (· < ·) (btreeKeys m) →
      List.Pairwise (· < ·) (btreeKeys (btreeInsert k v m)) := by
  intro m
  induction m with
  | nil =>
    intro _
    simp [btreeInsert, btreeKeys]
  | cons hd rest ih =>
    obtain ⟨k0, v0⟩ := hd
    intro hs
    have hs0 : ∀ a ∈ btreeKeys rest, k0 < a := by
      intro a ha
      exact (List.pairwise_cons.mp hs).1 a ha
    have hsrest : List.Pairwise (· < ·) (btreeKeys rest) := (List.pairwise_cons.mp hs).2
    by_cases h1 : k < k0
    · have : btreeKeys (btreeInsert k v ((k0, v0) :: rest)) = k :: k0 :: btreeKeys rest := by
        simp [btreeInsert, h1, btreeKeys]
      rw [this]
      refine List.pairwise_cons.mpr ⟨?_, hs⟩
      intro a ha
      rcases List.mem_cons.mp ha with hak | har
      · subst hak
        exact h1
      · exact lt_trans h1 (hs0 a har)
    · by_cases h2 : k = k0
      · subst h2
        have : btreeKeys (btreeInsert k v ((k, v0) :: rest)) = k :: btreeKeys rest := by
          simp [btreeInsert, h1, btreeKeys]
        rw [this]
        exact List.pairwise_cons.mpr ⟨hs0, hsrest⟩
      · have : btreeKeys (btreeInsert k v ((k0, v0) :: rest)) =
            k0 :: btreeKeys (btreeInsert k v rest) := by
          simp [btreeInsert, h1, h2, btreeKeys]
        rw [this]
        refine List.pairwise_cons.mpr ⟨?_, ih hsrest⟩
        intro a ha
        rcases (mem_keys_insert k a v rest).mp ha with hak | har
        · subst hak
          exact Nat.lt_of_le_of_ne (Nat.not_lt.mp h1) (fun he => h2 he.symm)
        · exact hs0 a har

theorem mem_btreeGet_of_sorted {β : Type} :
    ∀ {m : List (Oid × β)} {k : Oid} {v : β},
      List.Pairwise (· < ·) (btreeKeys m) → (k, v) ∈ m → btreeGet k m = some v := by
  intro m
  induction m with
  | nil =>
    intro k v _ hmem
    simp at hmem
  | cons hd rest ih =>
    obtain ⟨k0, v0⟩ := hd
    intro k v hs hmem
    rcases List.mem_cons.mp hmem with heq | hmem'
    · injection heq with h1 h2
      subst h1
      subst h2
      simp [btreeGet]
    · have hs' : List.Pairwise (· < ·) (k0 :: btreeKeys rest) := hs
      have hklt : k0 < k :=
        (List.pairwise_cons.mp hs').1 k (List.mem_map.mpr ⟨(k, v), hmem', rfl⟩)
      have hkne : k ≠ k0 := fun he => Nat.lt_irrefl k0 (he ▸ hklt)
      simp only [btreeGet, if_neg hkne]
      exact ih (List.pairwise_cons.mp hs).2 hmem'

theorem insert_parent_keysSorted (p c : Oid) (lut : Lut)
    (hs : List.Pairwise (· < ·) (btreeKeys lut)) :
    List.Pairwise (· < ·)
      (btreeKeys (insert_parent_and_has_not_seen_child p c lut).2) := by
  unfold insert_parent_and_has_not_seen_child
  cases hget : btreeGet c lut with
  | none => exact btreeInsert_keysSorted c _ lut hs
  | some cap =>
    cases cap with
    | Normal ps => exact btreeInsert_keysSorted c _ lut hs
    | Compact ps => exact hs

theorem blobEntryPush_keysSorted (t c : Oid) (lut : Lut)
    (hs : List.Pairwise (· < ·) (btreeKeys lut)) :
    List.Pairwise (· < ·) (btreeKeys (blobEntryPush t c lut)) := by
  unfold blobEntryPush
  cases hget : btreeGet c lut with
  | none => exact btreeInsert_keysSorted c _ lut hs
  | some cap =>
    cases cap with
    | Normal ps => exact btreeInsert_keysSorted c _ lut hs
    | Compact ps => exact hs

theorem recurseTreeItems_keysSorted (S : ObjectSource)
    (recur : Oid → Lut → Option (Lut × Nat))
    (hrecur : ∀ t lut lut2 n, recur t lut = some (lut2, n) →
      List.Pairwise (· < ·) (btreeKeys lut) → List.Pairwise (· < ·) (btreeKeys lut2)) :
    ∀ (items : List Oid) (t : Oid) (lut lut2 : Lut) (n : Nat),
      recurseTreeItems S recur t items lut = some (lut2, n) →
      List.Pairwise (· < ·) (btreeKeys lut) →
      List.Pairwise (· < ·) (btreeKeys lut2) := by
  intro items
  induction items with
  | nil =>
    intro t lut lut2 n h hs
    simp [recurseTreeItems] at h
    rw [← h.1]
    exact hs
  | cons item rest ih =>
    intro t lut lut2 n h hs
    cases hkind : S.kindOf item with
    | tree =>
      simp only [recurseTreeItems, hkind] at h
      rcases hcase : insert_parent_and_has_not_seen_child t item lut with ⟨b, lut1⟩
      have hs1 : List.Pairwise (· < ·) (btreeKeys lut1) := by
        have := insert_parent_keysSorted t item lut hs
        rw [hcase] at this
        exact this
      rw [hcase] at h
      cases b with
      | true =>
        simp only at h
        cases hrec : recur item lut1 with
        | none => rw [hrec] at h; exact absurd h (by simp)
        | some pr =>
          obtain ⟨lutr, r1⟩ := pr
          rw [hrec] at h
          simp only at h
          cases hrest : recurseTreeItems S recur t rest lutr with
          | none => rw [hrest] at h; exact absurd h (by simp)
          | some pr2 =>
            obtain ⟨lutr2, r2⟩ := pr2
            rw [hrest] at h
            simp only [Option.some.injEq, Prod.mk.injEq] at h
            rw [← h.1]
            exact ih t lutr lutr2 r2 hrest (hrecur item lut1 lutr r1 hrec hs1)
      | false =>
        simp only at h
        exact ih t lut1 lut2 n h hs1
    | blob =>
      simp only [recurseTreeItems, hkind] at h
      have hs1 : List.Pairwise (· < ·) (btreeKeys (blobEntryPush t item lut)) :=
        blobEntryPush_keysSorted t item lut hs
      cases hrest : recurseTreeItems S recur t rest (blobEntryPush t item lut) with
      | none => rw [hrest] at h; exact absurd h (by simp)
      | some pr =>
        obtain ⟨lutr, r⟩ := pr
        rw [hrest] at h
        simp only [Option.some.injEq, Prod.mk.injEq] at h
        rw [← h.1]
        exact ih t _ lutr r hrest hs1
    | commit =>
      simp only [recurseTreeItems, hkind] at h
      exact ih t lut lut2 n h hs
    | other =>
      simp only [recurseTreeItems, hkind] at h
      exact ih t lut lut2 n h hs

theorem recurseTree_keysSorted (S : ObjectSource) :
    ∀ (fuel : Nat) (t : Oid) (lut lut2 : Lut) (n : Nat),
      recurseTree S fuel t lut = some (lut2, n) →
      List.Pairwise (· < ·) (btreeKeys lut) →
      List.Pairwise (· < ·) (btreeKeys lut2) := by
  intro fuel
  induction fuel with
  | zero =>
    intro t lut lut2 n h
    simp [recurseTree] at h
  | succ fc ih =>
    intro t lut lut2 n h hs
    simp only [recurseTree] at h
    exact recurseTreeItems_keysSorted S (recurseTree S fc)
      (fun t' l l2 n' hh hss => ih t' l l2 n' hh hss)
      (S.entries t) t lut lut2 n h hs

theorem buildChunk_keysSorted (S : ObjectSource) (fuel : Nat) :
    ∀ (cs : List Oid) (lut lut2 : Lut) (n : Nat),
      buildChunk S fuel cs lut = some (lut2, n) →
      List.Pairwise (· < ·) (btreeKeys lut) →
      List.Pairwise (· < ·) (btreeKeys lut2) := by
  intro cs
  induction cs with
  | nil =>
    intro lut lut2 n h hs
    simp [buildChunk] at h
    rw [← h.1]
    exact hs
  | cons c rest ih =>
    intro lut lut2 n h hs
    by_cases hp : S.present c = true
    · simp only [buildChunk, hp, if_pos] at h
      have hs1 : List.Pairwise (· < ·)
          (btreeKeys (btreeInsert c (Capsule.Normal []) lut)) :=
        btreeInsert_keysSorted c _ lut hs
      rcases hcase : insert_parent_and_has_not_seen_child c (S.rootTree c)
          (btreeInsert c (Capsule.Normal []) lut) with ⟨b, lutp⟩
      have hs2 : List.Pairwise (· < ·) (btreeKeys lutp) := by
        have := insert_parent_keysSorted c (S.rootTree c)
          (btreeInsert c (Capsule.Normal []) lut) hs1
        rw [hcase] at this
        exact this
      rw [hcase] at h
      cases b with
      | true =>
        simp only at h
        cases hrec : recurseTree S fuel (S.rootTree c) lutp with
        | none => rw [hrec] at h; exact absurd h (by simp)
        | some pr =>
          obtain ⟨lutr, r1⟩ := pr
          rw [hrec] at h
          simp only at h
          cases hrest : buildChunk S fuel rest lutr with
          | none => rw [hrest] at h; exact absurd h (by simp)
          | some pr2 =>
            obtain ⟨lutr2, r2⟩ := pr2
            rw [hrest] at h
            simp only [Option.some.injEq, Prod.mk.injEq] at h
            rw [← h.1]
            exact ih lutr lutr2 r2 hrest
              (recurseTree_keysSorted S fuel (S.rootTree c) lutp lutr r1 hrec hs2)
      | false =>
        simp only at h
        exact ih lutp lut2 n h hs2
    · simp only [buildChunk, hp, Bool.false_eq_true, if_false, if_neg] at h
      exact ih lut lut2 n h hs

/-- The index the binary search resolves a present key to. -/
def idxOf (xs : List Oid) (k : Oid) : Nat := (binarySearch xs k).getD 0

theorem binarySearch_isSome (k : Oid) :
    ∀ xs : List Oid, k ∈ xs → ∃ i, binarySearch xs k = some i := by
  intro xs
  induction xs with
  | nil =>
    intro h
    simp at h
  | cons x rest ih =>
    intro h
    by_cases hx : x = k
    · exact ⟨0, by simp [binarySearch, hx]⟩
    · have hk : k ∈ rest := by
        rcases List.mem_cons.mp h with h1 | h2
        · exact absurd h1.symm hx
        · exact h2
      obtain ⟨j, hj⟩ := ih hk
      exact ⟨j + 1, by simp [binarySearch, hx, hj]⟩

theorem binarySearch_of_mem (k : Oid) (xs : List Oid) (h : k ∈ xs) :
    binarySearch xs k = some (idxOf xs k) := by
  obtain ⟨i, hi⟩ := binarySearch_isSome k xs h
  simp [idxOf, hi]

theorem binarySearch_getElem (k : Oid) :
    ∀ (xs : List Oid) (i : Nat), binarySearch xs k = some i → xs[i]? = some k := by
  intro xs
  induction xs with
  | nil =>
    intro i h
    simp [binarySearch] at h
  | cons x rest ih =>
    intro i h
    by_cases hx : x = k
    · simp [binarySearch, hx] at h
      subst h
      simp [hx]
    · simp only [binarySearch, if_neg hx, Option.map_eq_some'] at h
      obtain ⟨j, hj, hi⟩ := h
      subst hi
      simpa using ih j hj

theorem getElem_idxOf {xs : List Oid} {k : Oid} (h : k ∈ xs) :
    xs[idxOf xs k]? = some k :=
  binarySearch_getElem k xs (idxOf xs k) (binarySearch_of_mem k xs h)

/-- The finished value of a compacted capsule: each parent digest
replaced by its index in the key list. -/
def compactValue (all_oids : List Oid) : Capsule → Capsule
  | Capsule.Normal parent_oids => Capsule.Compact (parent_oids.map (idxOf all_oids))
  | Capsule.Compact _ => Capsule.Compact []

theorem compactParents_eq (all_oids : List Oid) :
    ∀ ps : List Oid, (∀ p ∈ ps, p ∈ all_oids) →
      compactParents all_oids ps = some (ps.map (idxOf all_oids)) := by
  intro ps
  induction ps with
  | nil =>
    intro _
    simp [compactParents]
  | cons p rest ih =>
    intro h
    have hp := binarySearch_of_mem p all_oids (h p (by simp))
    simp [compactParents, hp, ih (fun q hq => h q (by simp [hq]))]

theorem compactEntries_eq (all_oids : List Oid) :
    ∀ m : Lut,
      (∀ kv ∈ m, ∃ ps, kv.2 = Capsule.Normal ps ∧ ∀ p ∈ ps, p ∈ all_oids) →
      compactEntries all_oids m =
        some (m.map (fun kv => (kv.1, compactValue all_oids kv.2))) := by
  intro m
  induction m with
  | nil =>
    intro _
    simp [compactEntries]
  | cons kv rest ih =>
    intro h
    obtain ⟨k, c⟩ := kv
    obtain ⟨ps, hc, hclosed⟩ := h (k, c) (by simp)
    simp only at hc
    subst hc
    have hcap : compactCapsule all_oids (Capsule.Normal ps) =
        some (Capsule.Compact (ps.map (idxOf all_oids))) := by
      simp [compactCapsule, compactParents_eq all_oids ps hclosed]
    simp [compactEntries, hcap, ih (fun q hq => h q (by simp [hq])), compactValue]

theorem btreeGet_map_value (f : Capsule → Capsule) (a : Oid) :
    ∀ m : Lut, btreeGet a (m.map (fun kv => (kv.1, f kv.2))) = (btreeGet a m).map f := by
  intro m
  induction m with
  | nil => simp [btreeGet]
  | cons kv rest ih =>
    obtain ⟨k, c⟩ := kv
    by_cases hak : a = k
    · simp [btreeGet, hak]
    · simp [btreeGet, hak, ih]

theorem btreeKeys_map_value (f : Capsule → Capsule) (m : Lut) :
    btreeKeys (m.map (fun kv => (kv.1, f kv.2))) = btreeKeys m := by
  simp [btreeKeys, List.map_map]

/-- A table in which every key holds a `Normal` capsule whose parents are
again keys; the builder's finished tables are of this shape. -/
def ClosedNormalLut (lut : Lut) : Prop :=
  ∀ x ∈ btreeKeys lut, ∃ ps, btreeGet x lut = some (Capsule.Normal ps) ∧
    ∀ p ∈ ps, p ∈ btreeKeys lut

/-- Step-for-step equivalence of the Compact and Normal worklist loops:
over the compacted table, with the same fuel, the traversal of the
index-images of a digest stack emits exactly the digests the Normal
traversal emits. -/
theorem traverseCompact_eq_normal (lut : Lut) (hC : ClosedNormalLut lut) :
    ∀ fuel stack out, (∀ x ∈ stack, x ∈ btreeKeys lut) →
      traverseCompact (lut.map (fun kv => (kv.1, compactValue (btreeKeys lut) kv.2)))
        (btreeKeys lut) fuel (stack.map (idxOf (btreeKeys lut))) out =
      traverseNormal lut fuel stack out := by
  intro fuel
  induction fuel with
  | zero =>
    intro stack out hk
    cases stack with
    | nil => simp [traverseCompact, traverseNormal]
    | cons x s => simp [traverseCompact, traverseNormal]
  | succ fc ih =>
    intro stack out hk
    cases stack with
    | nil => simp [traverseCompact, traverseNormal]
    | cons x s =>
      have hxk : x ∈ btreeKeys lut := hk x (by simp)
      obtain ⟨ps, hps, hclosed⟩ := hC x hxk
      have hresolve : (btreeKeys lut)[idxOf (btreeKeys lut) x]? = some x :=
        getElem_idxOf hxk
      have hgetC : btreeGet x (lut.map (fun kv =>
          (kv.1, compactValue (btreeKeys lut) kv.2))) =
          some (Capsule.Compact (ps.map (idxOf (btreeKeys lut)))) := by
        rw [btreeGet_map_value, hps]
        rfl
      by_cases hempty : ps = []
      · subst hempty
        simp only [List.map_cons, traverseCompact, traverseNormal, hresolve, hgetC,
          hps, List.map_nil]
        simp only [if_true, if_pos]
        exact ih s (out ++ [x]) (fun a ha => hk a (by simp [ha]))
      · have hempty2 : ps.map (idxOf (btreeKeys lut)) ≠ [] := by
          simpa using hempty
        simp only [List.map_cons, traverseCompact, traverseNormal, hresolve, hgetC, hps]
        rw [if_neg hempty2, if_neg hempty]
        have harr : (ps.map (idxOf (btreeKeys lut))).reverse ++
            s.map (idxOf (btreeKeys lut)) =
            (ps.reverse ++ s).map (idxOf (btreeKeys lut)) := by
          simp [List.map_append, List.map_reverse]
        rw [harr]
        refine ih (ps.reverse ++ s) out (fun a ha => ?_)
        rcases List.mem_append.mp ha with hap | has
        · exact (hclosed a (List.mem_reverse.mp hap))
        · exact hk a (by simp [has])

theorem mem_btreeKeys_of_mem {β : Type} {m : List (Oid × β)} {k : Oid} {v : β}
    (h : (k, v) ∈ m) : k ∈ btreeKeys m :=
  List.mem_map.mpr ⟨(k, v), h, rfl⟩

/-- C9: compacting the table is a semantics-preserving refinement. For
every table the sequential builder produces (all capsules Normal),
compact_memory succeeds, and for every query digest and every fuel the
index-keyed Compact branch of lookup_oid emits exactly the digests the
digest-keyed Normal branch emits (so in particular the same set). The
key list is strictly sorted, which is what justifies the binary-search
step of the rewrite. -/
theorem c9_compact_memory_refines (S : ObjectSource) (hgt : Oid → Nat)
    (wf : SourceWf S hgt) (commits : List Oid) (fuel : Nat)
    (hnd : commits.Nodup)
    (hfuel : ∀ c ∈ commits, S.present c = true → hgt (S.rootTree c) < fuel)
    (lut : Lut) (nrefs : Nat)
    (hbuild : buildChunk S fuel commits [] = some (lut, nrefs)) :
    ∃ lutC, compact_memory lut = some lutC ∧
      btreeKeys lutC = btreeKeys lut ∧
      List.Pairwise (· < ·) (btreeKeys lut) ∧
      ∀ qfuel blob stackC stackN out,
        (lookup_oid blob lutC (btreeKeys lut) qfuel stackC out).map Prod.snd =
        (lookup_oid blob lut (btreeKeys lut) qfuel stackN out).map Prod.snd := by
  have inv0 : BuildInv S [] (fun _ _ => False) [] := by
    refine ⟨by simp [btreeKeys], by simp, by simp [btreeKeys], ?_⟩
    intro p x hpx
    rcases hpx with ⟨hp, -⟩ | ⟨hp, -⟩
    · simp at hp
    · simp [btreeKeys] at hp
  obtain ⟨lut2, n2, F2, hrun, inv2, hiff, -⟩ :=
    buildChunk_inv S hgt wf fuel commits [] [] inv0 hnd (by simp) hfuel
  rw [hbuild] at hrun
  have hpair : lut = lut2 ∧ nrefs = n2 := by
    simpa using hrun
  obtain ⟨hl, -⟩ := hpair
  subst hl
  have hsorted : List.Pairwise (· < ·) (btreeKeys lut) :=
    buildChunk_keysSorted S fuel commits [] lut nrefs hbuild (by simp [btreeKeys])
  have hclosed : ClosedNormalLut lut := by
    intro x hx
    rcases inv2.keysSound x hx with ⟨-, hxF⟩ | ⟨hk, -⟩
    · exact ⟨[], (inv2.commitsF x hxF).2, by simp⟩
    · obtain ⟨ps, hps, -, hall⟩ := inv2.capsules x hx hk
      refine ⟨ps, hps, fun p hp => ?_⟩
      rcases hall p hp with ⟨hpF, -⟩ | ⟨hpk, -⟩
      · exact btreeGet_mem_keys (inv2.commitsF p hpF).2
      · exact hpk
  have hentries : ∀ kv ∈ lut, ∃ ps, kv.2 = Capsule.Normal ps ∧
      ∀ p ∈ ps, p ∈ btreeKeys lut := by
    intro kv hkv
    obtain ⟨k, c⟩ := kv
    have hget : btreeGet k lut = some c := mem_btreeGet_of_sorted hsorted hkv
    obtain ⟨ps, hps, hcl⟩ := hclosed k (mem_btreeKeys_of_mem hkv)
    rw [hget] at hps
    obtain rfl : c = Capsule.Normal ps := by simpa using hps
    exact ⟨ps, rfl, hcl⟩
  have hcomp : compact_memory lut =
      some (lut.map (fun kv => (kv.1, compactValue (btreeKeys lut) kv.2))) :=
    compactEntries_eq (btreeKeys lut) lut hentries
  refine ⟨lut.map (fun kv => (kv.1, compactValue (btreeKeys lut) kv.2)),
    hcomp, btreeKeys_map_value _ lut, hsorted, ?_⟩
  intro qfuel blob stackC stackN out
  cases hget : btreeGet blob lut with
  | none =>
    have hgetC : btreeGet blob
        (lut.map (fun kv => (kv.1, compactValue (btreeKeys lut) kv.2))) = none := by
      rw [btreeGet_map_value, hget]
      rfl
    simp [lookup_oid, hget, hgetC]
  | some cap =>
    have hbk : blob ∈ btreeKeys lut := btreeGet_mem_keys hget
    obtain ⟨ps, hps, hcl⟩ := hclosed blob hbk
    rw [hget] at hps
    obtain rfl : cap = Capsule.Normal ps := by simpa using hps
    have hgetC : btreeGet blob
        (lut.map (fun kv => (kv.1, compactValue (btreeKeys lut) kv.2))) =
        some (Capsule.Compact (ps.map (idxOf (btreeKeys lut)))) := by
      rw [btreeGet_map_value, hget]
      rfl
    have harr : (ps.map (idxOf (btreeKeys lut))).reverse =
        ps.reverse.map (idxOf (btreeKeys lut)) := by
      simp [List.map_reverse]
    have heq := traverseCompact_eq_normal lut hclosed qfuel ps.reverse out
      (fun a ha => hcl a (List.mem_reverse.mp ha))
    simp only [lookup_oid, hget, hgetC, harr, heq]
    cases traverseNormal lut qfuel ps.reverse out with
    | none => rfl
    | some r => rfl

theorem c9_compact_memory_refines_witness :
    ∃ lutC, compact_memory
        [(0, Capsule.Normal []), (1, Capsule.Normal [0]), (2, Capsule.Normal [1])] =
        some lutC ∧
      btreeKeys lutC = btreeKeys
        [(0, Capsule.Normal []), (1, Capsule.Normal [0]), (2, Capsule.Normal [1])] ∧
      List.Pairwise (· < ·) (btreeKeys
        [(0, Capsule.Normal []), (1, Capsule.Normal [0]), (2, Capsule.Normal [1])]) ∧
      ∀ qfuel blob stackC stackN out,
        (lookup_oid blob lutC (btreeKeys
          [(0, Capsule.Normal []), (1, Capsule.Normal [0]), (2, Capsule.Normal [1])])
          qfuel stackC out).map Prod.snd =
        (lookup_oid blob
          [(0, Capsule.Normal []), (1, Capsule.Normal [0]), (2, Capsule.Normal [1])]
          (btreeKeys
          [(0, Capsule.Normal []), (1, Capsule.Normal [0]), (2, Capsule.Normal [1])])
          qfuel stackN out).map Prod.snd :=
  c9_compact_memory_refines demoSource demoHeight demo_wf [0] 3 (by decide) (by decide)
    [(0, Capsule.Normal []), (1, Capsule.Normal [0]), (2, Capsule.Normal [1])] 1
    (by decide)

/-- Structural invariant of a `ReverseGraph` during `build2`: the two
dense arrays stay parallel, every recorded edge id is a valid vertex id,
the digest-to-id map is exactly the inverse of the vertex array, every
vertex is a found commit of `F` or a tree/blob, and every commit of `F`
keeps an empty edge list. -/
structure GraphInv (S : ObjectSource) (F : List Oid) (g : ReverseGraph) : Prop where
  lenEq : g.vertices_to_edges.length = g.vertices_to_oid.length
  edgesValid : ∀ l ∈ g.vertices_to_edges, ∀ i ∈ l, i < g.vertices_to_oid.length
  mapInv : ∀ i oid, g.vertices_to_oid[i]? = some oid →
    btreeGet oid g.oids_to_vertices = some i
  mapSound : ∀ k idx, btreeGet k g.oids_to_vertices = some idx →
    g.vertices_to_oid[idx]? = some k
  vertexKinds : ∀ x ∈ g.vertices_to_oid,
    (S.kindOf x = ObjKind.commit ∧ x ∈ F) ∨
    (S.kindOf x = ObjKind.tree ∨ S.kindOf x = ObjKind.blob)
  commitEdges : ∀ c ∈ F, ∃ i, btreeGet c g.oids_to_vertices = some i ∧
    g.vertices_to_edges[i]? = some []
  commitKinds : ∀ c ∈ F, S.kindOf c = ObjKind.commit

theorem mem_of_getElem_some {α : Type} {l : List α} {i : Nat} {a : α}
    (h : l[i]? = some a) : a ∈ l := by
  obtain ⟨hl, rfl⟩ := List.getElem?_eq_some.mp h
  exact List.getElem_mem hl

theorem GraphInv.appendCommit {S : ObjectSource} {F : List Oid} {g : ReverseGraph}
    {c : Oid} (inv : GraphInv S F g) (hkc : S.kindOf c = ObjKind.commit)
    (hcF : c ∉ F) (hnew : c ∉ g.vertices_to_oid) :
    GraphInv S (c :: F) (g.append c).1 := by
  have hVlen := inv.lenEq
  refine ⟨?_, ?_, ?_, ?_, ?_, ?_, ?_⟩
  · simp [ReverseGraph.append, hVlen]
  · intro l hl i hi
    simp only [ReverseGraph.append] at hl
    rcases List.mem_append.mp hl with hlo | hln
    · have := inv.edgesValid l hlo i hi
      simp [ReverseGraph.append]
      omega
    · obtain rfl : l = [] := by simpa using hln
      simp at hi
  · intro i oid hio
    simp only [ReverseGraph.append] at hio ⊢
    by_cases hlt : i < g.vertices_to_oid.length
    · rw [List.getElem?_append_left hlt] at hio
      have := inv.mapInv i oid hio
      have hne : oid ≠ c := by
        intro he
        subst he
        exact hnew (mem_of_getElem_some hio)
      rw [btreeGet_insert_ne _ _ _ _ hne]
      exact this
    · have hlen : i < g.vertices_to_oid.length + 1 := by
        have := List.getElem?_eq_some.mp hio
        simpa [List.length_append] using this.1
      obtain rfl : i = g.vertices_to_oid.length := by omega
      rw [List.getElem?_append_right (by omega)] at hio
      simp only [Nat.sub_self] at hio
      obtain rfl : c = oid := by simpa using hio
      exact btreeGet_insert_self _ _ _
  · intro k idx hk
    simp only [ReverseGraph.append] at hk ⊢
    by_cases hkc2 : k = c
    · subst hkc2
      rw [btreeGet_insert_self] at hk
      obtain rfl : idx = g.vertices_to_oid.length := by simpa using hk.symm
      rw [List.getElem?_append_right (by omega)]
      simp
    · rw [btreeGet_insert_ne _ _ _ _ hkc2] at hk
      have := inv.mapSound k idx hk
      have hlt : idx < g.vertices_to_oid.length := (List.getElem?_eq_some.mp this).1
      rw [List.getElem?_append_left hlt]
      exact this
  · intro x hx
    simp only [ReverseGraph.append] at hx
    rcases List.mem_append.mp hx with hxo | hxc
    · rcases inv.vertexKinds x hxo with ⟨hk, hfm⟩ | hk
      · exact Or.inl ⟨hk, List.mem_cons_of_mem c hfm⟩
      · exact Or.inr hk
    · obtain rfl : x = c := by simpa using hxc
      exact Or.inl ⟨hkc, List.mem_cons_self _ _⟩
  · intro a ha
    simp only [ReverseGraph.append]
    rcases List.mem_cons.mp ha with haa | haF
    · subst haa
      refine ⟨g.vertices_to_oid.length, btreeGet_insert_self _ _ _, ?_⟩
      rw [List.getElem?_append_right (by omega)]
      simp [hVlen]
    · obtain ⟨i, hgi, hEi⟩ := inv.commitEdges a haF
      have hane : a ≠ c := fun he => hcF (he ▸ haF)
      refine ⟨i, by rw [btreeGet_insert_ne _ _ _ _ hane]; exact hgi, ?_⟩
      have hlt : i < g.vertices_to_edges.length := (List.getElem?_eq_some.mp hEi).1
      rw [List.getElem?_append_left hlt]
      exact hEi
  · intro a ha
    rcases List.mem_cons.mp ha with haa | haF
    · subst haa
      exact hkc
    · exact inv.commitKinds a haF


theorem GraphInv.insertParentOccupied {S : ObjectSource} {F : List Oid}
    {g : ReverseGraph} {parent : Nat} {child : Oid} {idx : Nat}
    (inv : GraphInv S F g) (hp : parent < g.vertices_to_oid.length)
    (hkchild : S.kindOf child = ObjKind.tree ∨ S.kindOf child = ObjKind.blob)
    (hidx : btreeGet child g.oids_to_vertices = some idx) :
    ∃ edges, g.vertices_to_edges[idx]? = some edges ∧
      g.insert_parent_get_new_child_id parent child =
        some ({ g with vertices_to_edges :=
          g.vertices_to_edges.set idx (edges ++ [parent]) }, none) ∧
      GraphInv S F { g with vertices_to_edges :=
        g.vertices_to_edges.set idx (edges ++ [parent]) } := by
  have hvc : g.vertices_to_oid[idx]? = some child := inv.mapSound child idx hidx
  have hlt : idx < g.vertices_to_oid.length := (List.getElem?_eq_some.mp hvc).1
  have hltE : idx < g.vertices_to_edges.length := by
    rw [inv.lenEq]
    exact hlt
  obtain ⟨edges, hedges⟩ : ∃ edges, g.vertices_to_edges[idx]? = some edges :=
    ⟨g.vertices_to_edges[idx], List.getElem?_eq_some.mpr ⟨hltE, rfl⟩⟩
  refine ⟨edges, hedges, ?_, ?_⟩
  · simp [ReverseGraph.insert_parent_get_new_child_id, hidx, hedges]
  · refine ⟨?_, ?_, inv.mapInv, inv.mapSound, inv.vertexKinds, ?_, inv.commitKinds⟩
    · simp [inv.lenEq]
    · intro l hl i hi
      rcases List.mem_or_eq_of_mem_set hl with hlo | hln
      · exact inv.edgesValid l hlo i hi
      · subst hln
        rcases List.mem_append.mp hi with hio | hip
        · exact inv.edgesValid edges (mem_of_getElem_some hedges) i hio
        · obtain rfl : i = parent := by simpa using hip
          exact hp
    · intro a haF
      obtain ⟨i, hgi, hEi⟩ := inv.commitEdges a haF
      have hvca : g.vertices_to_oid[i]? = some a := inv.mapSound a i hgi
      have hine : idx ≠ i := by
        intro he
        subst he
        rw [hvc] at hvca
        obtain rfl : child = a := by simpa using hvca
        have hkc := inv.commitKinds child haF
        rcases hkchild with h | h <;> rw [hkc] at h <;> exact ObjKind.noConfusion h
      exact ⟨i, hgi, by rw [List.getElem?_set_ne hine]; exact hEi⟩

theorem GraphInv.insertParentVacant {S : ObjectSource} {F : List Oid}
    {g : ReverseGraph} {parent : Nat} {child : Oid}
    (inv : GraphInv S F g) (hp : parent < g.vertices_to_oid.length)
    (hkchild : S.kindOf child = ObjKind.tree ∨ S.kindOf child = ObjKind.blob)
    (hnone : btreeGet child g.oids_to_vertices = none) :
    g.insert_parent_get_new_child_id parent child =
      some ({ vertices_to_oid := g.vertices_to_oid ++ [child],
              vertices_to_edges := g.vertices_to_edges ++ [[parent]],
              oids_to_vertices := btreeInsert child g.vertices_to_oid.length
                g.oids_to_vertices },
            some g.vertices_to_oid.length) ∧
    GraphInv S F { vertices_to_oid := g.vertices_to_oid ++ [child],
                   vertices_to_edges := g.vertices_to_edges ++ [[parent]],
                   oids_to_vertices := btreeInsert child g.vertices_to_oid.length
                     g.oids_to_vertices } := by
  have hVlen := inv.lenEq
  have hnew : child ∉ g.vertices_to_oid := by
    intro hmem
    obtain ⟨i, hi, rfl⟩ := List.mem_iff_getElem.mp hmem
    have := inv.mapInv i _ (List.getElem?_eq_some.mpr ⟨hi, rfl⟩)
    rw [hnone] at this
    exact Option.noConfusion this
  constructor
  · simp [ReverseGraph.insert_parent_get_new_child_id, hnone]
  refine ⟨?_, ?_, ?_, ?_, ?_, ?_, inv.commitKinds⟩
  · simp [hVlen]
  · intro l hl i hi
    simp only at hl
    rcases List.mem_append.mp hl with hlo | hln
    · have := inv.edgesValid l hlo i hi
      simp only [List.length_append, List.length_cons, List.length_nil]
      omega
    · obtain rfl : l = [parent] := by simpa using hln
      obtain rfl : i = parent := by simpa using hi
      simp only [List.length_append, List.length_cons, List.length_nil]
      omega
  · intro i oid hio
    simp only at hio ⊢
    by_cases hlti : i < g.vertices_to_oid.length
    · rw [List.getElem?_append_left hlti] at hio
      have := inv.mapInv i oid hio
      have hne : oid ≠ child := by
        intro he
        subst he
        exact hnew (mem_of_getElem_some hio)
      rw [btreeGet_insert_ne _ _ _ _ hne]
      exact this
    · have hlen : i < g.vertices_to_oid.length + 1 := by
        have := List.getElem?_eq_some.mp hio
        simpa [List.length_append] using this.1
      obtain rfl : i = g.vertices_to_oid.length := by omega
      rw [List.getElem?_append_right (by omega)] at hio
      simp only [Nat.sub_self] at hio
      obtain rfl : child = oid := by simpa using hio
      exact btreeGet_insert_self _ _ _
  · intro k idx hk
    simp only at hk ⊢
    by_cases hkc2 : k = child
    · subst hkc2
      rw [btreeGet_insert_self] at hk
      obtain rfl : idx = g.vertices_to_oid.length := by simpa using hk.symm
      rw [List.getElem?_append_right (by omega)]
      simp
    · rw [btreeGet_insert_ne _ _ _ _ hkc2] at hk
      have := inv.mapSound k idx hk
      have hlti : idx < g.vertices_to_oid.length := (List.getElem?_eq_some.mp this).1
      rw [List.getElem?_append_left hlti]
      exact this
  · intro x hx
    simp only at hx
    rcases List.mem_append.mp hx with hxo | hxc
    · exact inv.vertexKinds x hxo
    · obtain rfl : x = child := by simpa using hxc
      exact Or.inr hkchild
  · intro a haF
    obtain ⟨i, hgi, hEi⟩ := inv.commitEdges a haF
    have hane : a ≠ child := by
      intro he
      have hkc := inv.commitKinds a haF
      subst he
      rcases hkchild with h | h <;> rw [hkc] at h <;> exact ObjKind.noConfusion h
    refine ⟨i, by simp only; rw [btreeGet_insert_ne _ _ _ _ hane]; exact hgi, ?_⟩
    have hlti : i < g.vertices_to_edges.length := (List.getElem?_eq_some.mp hEi).1
    simp only
    rw [List.getElem?_append_left hlti]
    exact hEi

theorem recurseTree2Items_inv (S : ObjectSource) (F : List Oid)
    (recur : Oid → Nat → ReverseGraph → Option (ReverseGraph × Nat))
    (hrecur : ∀ t tidx g g2 n, recur t tidx g = some (g2, n) →
      GraphInv S F g → tidx < g.vertices_to_oid.length →
      GraphInv S F g2 ∧ g.vertices_to_oid.length ≤ g2.vertices_to_oid.length) :
    ∀ (items : List Oid) (tidx : Nat) (g g2 : ReverseGraph) (n : Nat),
      recurseTree2Items S recur tidx items g = some (g2, n) →
      GraphInv S F g → tidx < g.vertices_to_oid.length →
      GraphInv S F g2 ∧ g.vertices_to_oid.length ≤ g2.vertices_to_oid.length := by
  intro items
  induction items with
  | nil =>
    intro tidx g g2 n h inv htidx
    simp [recurseTree2Items] at h
    rw [← h.1]
    exact ⟨inv, le_rfl⟩
  | cons item rest ih =>
    intro tidx g g2 n h inv htidx
    cases hkind : S.kindOf item with
    | tree =>
      simp only [recurseTree2Items, hkind] at h
      cases hget : btreeGet item g.oids_to_vertices with
      | some idx =>
        obtain ⟨edges, hedges, hins, inv1⟩ :=
          inv.insertParentOccupied htidx (Or.inl hkind) hget
        rw [hins] at h
        simp only at h
        obtain ⟨hinv2, hle⟩ := ih tidx _ g2 n h inv1 (by simpa using htidx)
        exact ⟨hinv2, by simpa using hle⟩
      | none =>
        obtain ⟨hins, inv1⟩ := inv.insertParentVacant htidx (Or.inl hkind) hget
        rw [hins] at h
        simp only at h
        cases hrec : recur item g.vertices_to_oid.length _ with
        | none => rw [hrec] at h; exact absurd h (by simp)
        | some pr =>
          obtain ⟨gr, r1⟩ := pr
          rw [hrec] at h
          simp only at h
          obtain ⟨invr, hler⟩ := hrecur item g.vertices_to_oid.length _ gr r1 hrec inv1
            (by simp)
          cases hrest : recurseTree2Items S recur tidx rest gr with
          | none => rw [hrest] at h; exact absurd h (by simp)
          | some pr2 =>
            obtain ⟨gr2, r2⟩ := pr2
            rw [hrest] at h
            simp only [Option.some.injEq, Prod.mk.injEq] at h
            have hlen1 : g.vertices_to_oid.length + 1 ≤ gr.vertices_to_oid.length := by
              simpa using hler
            obtain ⟨invr2, hler2⟩ := ih tidx gr gr2 r2 hrest invr (by omega)
            rw [← h.1]
            exact ⟨invr2, by omega⟩
    | blob =>
      simp only [recurseTree2Items, hkind] at h
      cases hget : btreeGet item g.oids_to_vertices with
      | some idx =>
        obtain ⟨edges, hedges, hins, inv1⟩ :=
          inv.insertParentOccupied htidx (Or.inr hkind) hget
        rw [hins] at h
        simp only at h
        cases hrest : recurseTree2Items S recur tidx rest _ with
        | none => rw [hrest] at h; exact absurd h (by simp)
        | some pr =>
          obtain ⟨gr, r⟩ := pr
          rw [hrest] at h
          simp only [Option.some.injEq, Prod.mk.injEq] at h
          obtain ⟨invr, hler⟩ := ih tidx _ gr r hrest inv1 (by simpa using htidx)
          rw [← h.1]
          exact ⟨invr, by simpa using hler⟩
      | none =>
        obtain ⟨hins, inv1⟩ := inv.insertParentVacant htidx (Or.inr hkind) hget
        rw [hins] at h
        simp only at h
        cases hrest : recurseTree2Items S recur tidx rest _ with
        | none => rw [hrest] at h; exact absurd h (by simp)
        | some pr =>
          obtain ⟨gr, r⟩ := pr
          rw [hrest] at h
          simp only [Option.some.injEq, Prod.mk.injEq] at h
          obtain ⟨invr, hler⟩ := ih tidx _ gr r hrest inv1 (by simp; omega)
          rw [← h.1]
          refine ⟨invr, ?_⟩
          have : g.vertices_to_oid.length + 1 ≤ gr.vertices_to_oid.length := by
            simpa using hler
          omega
    | commit =>
      simp only [recurseTree2Items, hkind] at h
      exact ih tidx g g2 n h inv htidx
    | other =>
      simp only [recurseTree2Items, hkind] at h
      exact ih tidx g g2 n h inv htidx

theorem recurseTree2_inv (S : ObjectSource) (F : List Oid) :
    ∀ (fuel : Nat) (t : Oid) (tidx : Nat) (g g2 : ReverseGraph) (n : Nat),
      recurseTree2 S fuel t tidx g = some (g2, n) →
      GraphInv S F g → tidx < g.vertices_to_oid.length →
      GraphInv S F g2 ∧ g.vertices_to_oid.length ≤ g2.vertices_to_oid.length := by
  intro fuel
  induction fuel with
  | zero =>
    intro t tidx g g2 n h
    simp [recurseTree2] at h
  | succ fc ihf =>
    intro t tidx g g2 n h inv htidx
    simp only [recurseTree2] at h
    exact recurseTree2Items_inv S F _
      (fun t' ti' g' g2' n' hh inv' hti' => ihf t' ti' g' g2' n' hh inv' hti')
      (S.entries t) tidx g g2 n h inv htidx

theorem buildChunk2_inv (S : ObjectSource) (hgt : Oid → Nat) (wf : SourceWf S hgt)
    (fuel : Nat) :
    ∀ (cs F : List Oid) (g g2 : ReverseGraph) (n : Nat),
      buildChunk2 S fuel cs g = some (g2, n) →
      GraphInv S F g → cs.Nodup → (∀ c ∈ cs, c ∉ F) →
      ∃ F2, GraphInv S F2 g2 ∧
        (∀ a, a ∈ F2 ↔ (a ∈ cs ∧ S.present a = true) ∨ a ∈ F) := by
  intro cs
  induction cs with
  | nil =>
    intro F g g2 n h inv _ _
    simp [buildChunk2] at h
    rw [← h.1]
    exact ⟨F, inv, by simp⟩
  | cons c rest ih =>
    intro F g g2 n h inv hnd hnotF
    have hndtail : rest.Nodup := (List.nodup_cons.mp hnd).2
    have hcnotrest : c ∉ rest := (List.nodup_cons.mp hnd).1
    by_cases hp : S.present c = true
    · have hkc : S.kindOf c = ObjKind.commit := wf.presentCommit c hp
      have hkr : S.kindOf (S.rootTree c) = ObjKind.tree := wf.rootIsTree c hp
      have hcF : c ∉ F := hnotF c (by simp)
      have hnew : c ∉ g.vertices_to_oid := by
        intro hmem
        rcases inv.vertexKinds c hmem with ⟨-, hcf⟩ | hk
        · exact hcF hcf
        · rcases hk with h' | h' <;> rw [hkc] at h' <;> exact ObjKind.noConfusion h'
      have inv1 : GraphInv S (c :: F) (g.append c).1 :=
        inv.appendCommit hkc hcF hnew
      have happlen : (g.append c).1.vertices_to_oid.length =
          g.vertices_to_oid.length + 1 := by
        simp [ReverseGraph.append]
      have hidxlt : (g.append c).2 < (g.append c).1.vertices_to_oid.length := by
        simp [ReverseGraph.append]
      have hnotF2 : ∀ a ∈ rest, a ∉ c :: F := by
        intro a ha hmem
        rcases List.mem_cons.mp hmem with hac | haF
        · exact hcnotrest (hac ▸ ha)
        · exact hnotF a (by simp [ha]) haF
      simp only [buildChunk2, hp, if_pos] at h
      cases hget : btreeGet (S.rootTree c) (g.append c).1.oids_to_vertices with
      | some idx =>
        obtain ⟨edges, hedges, hins, inv2⟩ :=
          inv1.insertParentOccupied hidxlt (Or.inl hkr) hget
        rw [hins] at h
        simp only at h
        exact ih (c :: F) _ g2 n h inv2 hndtail hnotF2 |>.imp (fun F2 hF2 =>
          ⟨hF2.1, fun a => by
            rw [hF2.2 a]
            simp only [List.mem_cons]
            constructor
            · rintro (⟨ha, hpa⟩ | (hac | haF))
              · exact Or.inl ⟨Or.inr ha, hpa⟩
              · exact Or.inl ⟨Or.inl hac, hac ▸ hp⟩
              · exact Or.inr haF
            · rintro (⟨hac | ha, hpa⟩ | haF)
              · exact Or.inr (Or.inl hac)
              · exact Or.inl ⟨ha, hpa⟩
              · exact Or.inr (Or.inr haF)⟩)
      | none =>
        obtain ⟨hins, inv2⟩ := inv1.insertParentVacant hidxlt (Or.inl hkr) hget
        rw [hins] at h
        simp only at h
        cases hrec : recurseTree2 S fuel (S.rootTree c)
            (g.append c).1.vertices_to_oid.length _ with
        | none => rw [hrec] at h; exact absurd h (by simp)
        | some pr =>
          obtain ⟨gr, r1⟩ := pr
          rw [hrec] at h
          simp only at h
          obtain ⟨invr, -⟩ := recurseTree2_inv S (c :: F) fuel (S.rootTree c)
            (g.append c).1.vertices_to_oid.length _ gr r1 hrec inv2 (by simp)
          cases hrest : buildChunk2 S fuel rest gr with
          | none => rw [hrest] at h; exact absurd h (by simp)
          | some pr2 =>
            obtain ⟨gr2, r2⟩ := pr2
            rw [hrest] at h
            simp only [Option.some.injEq, Prod.mk.injEq] at h
            obtain ⟨F2, invF2, hiff⟩ := ih (c :: F) gr gr2 r2 hrest invr hndtail hnotF2
            rw [← h.1]
            refine ⟨F2, invF2, fun a => ?_⟩
            rw [hiff a]
            simp only [List.mem_cons]
            constructor
            · rintro (⟨ha, hpa⟩ | (hac | haF))
              · exact Or.inl ⟨Or.inr ha, hpa⟩
              · exact Or.inl ⟨Or.inl hac, hac ▸ hp⟩
              · exact Or.inr haF
            · rintro (⟨hac | ha, hpa⟩ | haF)
              · exact Or.inr (Or.inl hac)
              · exact Or.inl ⟨ha, hpa⟩
              · exact Or.inr (Or.inr haF)
    · simp only [buildChunk2, hp, Bool.false_eq_true, if_false, if_neg] at h
      obtain ⟨F2, invF2, hiff⟩ := ih F g g2 n h inv hndtail
        (fun a ha => hnotF a (by simp [ha]))
      refine ⟨F2, invF2, fun a => ?_⟩
      rw [hiff a]
      simp only [List.mem_cons]
      constructor
      · rintro (⟨ha, hpa⟩ | haF)
        · exact Or.inl ⟨Or.inr ha, hpa⟩
        · exact Or.inr haF
      · rintro (⟨hac | ha, hpa⟩ | haF)
        · exact absurd (hac ▸ hpa) hp
        · exact Or.inl ⟨ha, hpa⟩
        · exact Or.inr haF

/-- C2: every ReverseGraph produced by build2's worker loop satisfies the
three structural invariants: the vertex array and the edge-list array
have the same length, every id stored in any edge list is a valid vertex
index, and the digest-to-id map inverts the vertex array. -/
theorem c2_reverse_graph_invariants (S : ObjectSource) (hgt : Oid → Nat)
    (wf : SourceWf S hgt) (commits : List Oid) (fuel : Nat)
    (hnd : commits.Nodup) (g : ReverseGraph) (n : Nat)
    (hbuild : buildChunk2 S fuel commits (ReverseGraph.mk [] [] []) = some (g, n)) :
    g.vertices_to_edges.length = g.vertices_to_oid.length ∧
    (∀ l ∈ g.vertices_to_edges, ∀ i ∈ l, i < g.vertices_to_oid.length) ∧
    (∀ i oid, g.vertices_to_oid[i]? = some oid →
      btreeGet oid g.oids_to_vertices = some i) := by
  have inv0 : GraphInv S [] (ReverseGraph.mk [] [] []) := by
    refine ⟨rfl, ?_, ?_, ?_, ?_, ?_, ?_⟩
    · intro l hl
      simp at hl
    · intro i oid hio
      simp at hio
    · intro k idx hk
      simp [btreeGet] at hk
    · intro x hx
      simp at hx
    · intro a ha
      simp at ha
    · intro a ha
      simp at ha
  obtain ⟨F2, inv2, -⟩ :=
    buildChunk2_inv S hgt wf fuel commits [] _ g n hbuild inv0 hnd (by simp)
  exact ⟨inv2.lenEq, inv2.edgesValid, inv2.mapInv⟩

theorem c2_reverse_graph_invariants_witness :
    (ReverseGraph.mk [0, 1, 2] [[], [0], [1]] [(0, 0), (1, 1), (2, 2)]).vertices_to_edges.length =
      (ReverseGraph.mk [0, 1, 2] [[], [0], [1]] [(0, 0), (1, 1), (2, 2)]).vertices_to_oid.length ∧
    (∀ l ∈ (ReverseGraph.mk [0, 1, 2] [[], [0], [1]] [(0, 0), (1, 1), (2, 2)]).vertices_to_edges,
      ∀ i ∈ l, i < (ReverseGraph.mk [0, 1, 2] [[], [0], [1]] [(0, 0), (1, 1), (2, 2)]).vertices_to_oid.length) ∧
    (∀ i oid, (ReverseGraph.mk [0, 1, 2] [[], [0], [1]] [(0, 0), (1, 1), (2, 2)]).vertices_to_oid[i]? = some oid →
      btreeGet oid (ReverseGraph.mk [0, 1, 2] [[], [0], [1]] [(0, 0), (1, 1), (2, 2)]).oids_to_vertices = some i) :=
  c2_reverse_graph_invariants demoSource demoHeight demo_wf [0] 3 (by decide)
    (ReverseGraph.mk [0, 1, 2] [[], [0], [1]] [(0, 0), (1, 1), (2, 2)]) 1 (by decide)

/-- C6: after build2's worker loop completes, every commit inserted from
the commit iteration maps to a vertex whose edge list is empty: tree
entries of kind Commit or Other are skipped during tree recursion, so no
build step ever adds a parent edge to a commit vertex. -/
theorem c6_commit_vertices_no_parents (S : ObjectSource) (hgt : Oid → Nat)
    (wf : SourceWf S hgt) (commits : List Oid) (fuel : Nat)
    (hnd : commits.Nodup) (g : ReverseGraph) (n : Nat)
    (hbuild : buildChunk2 S fuel commits (ReverseGraph.mk [] [] []) = some (g, n)) :
    ∀ c ∈ commits, S.present c = true →
      ∃ i, btreeGet c g.oids_to_vertices = some i ∧
        g.vertices_to_edges[i]? = some [] := by
  have inv0 : GraphInv S [] (ReverseGraph.mk [] [] []) := by
    refine ⟨rfl, ?_, ?_, ?_, ?_, ?_, ?_⟩
    · intro l hl
      simp at hl
    · intro i oid hio
      simp at hio
    · intro k idx hk
      simp [btreeGet] at hk
    · intro x hx
      simp at hx
    · intro a ha
      simp at ha
    · intro a ha
      simp at ha
  obtain ⟨F2, inv2, hiff⟩ :=
    buildChunk2_inv S hgt wf fuel commits [] _ g n hbuild inv0 hnd (by simp)
  intro c hcm hcp
  exact inv2.commitEdges c ((hiff c).mpr (Or.inl ⟨hcm, hcp⟩))

theorem c6_commit_vertices_no_parents_witness :
    ∃ i, btreeGet 0
        (ReverseGraph.mk [0, 1, 2] [[], [0], [1]] [(0, 0), (1, 1), (2, 2)]).oids_to_vertices =
        some i ∧
      (ReverseGraph.mk [0, 1, 2] [[], [0], [1]] [(0, 0), (1, 1), (2, 2)]).vertices_to_edges[i]? =
        some [] :=
  c6_commit_vertices_no_parents demoSource demoHeight demo_wf [0] 3 (by decide)
    (ReverseGraph.mk [0, 1, 2] [[], [0], [1]] [(0, 0), (1, 1), (2, 2)]) 1 (by decide)
    0 (by decide) (by decide)
